import Mathlib

/-!
Verification development for the Permafrost Engine pathfinding core
(`a_star.h`), the storage-site resource bookkeeping (`storage_site.c`)
and the formation cell-grid sizing (`formation.c`).

The pathfinding implementation itself is not present in the repository
snapshot (only the interface header `a_star.h` is); the two pathfinders
`AStar_GridPath` and `AStar_PortalGraphPath` are therefore modelled from
the specification document (sections 3, 4.1, 4.2, 4.3) on top of a shared
A* search core, as the spec itself prescribes in section 4.3.

Costs are values of the form `a + b * sqrt 2` with natural coefficients:
orthogonal steps contribute the entered tile's cost to the first
component and diagonal steps contribute it to the second component
(the spec's "diagonal moves additionally scaled by sqrt 2").  The C code
uses `float`; the model uses exact arithmetic over this representation,
with comparisons decided by integer arithmetic.
-/

/-- Exact cost value `units + diags * sqrt 2` with natural coefficients.
Models the float cost accumulator of the A* implementation: every cost
that arises in the search is a sum of per-tile costs (orthogonal steps)
plus per-tile costs scaled by `sqrt 2` (diagonal steps). -/
structure NavCost where
  units : Nat
  diags : Nat
deriving DecidableEq, Repr

namespace NavCost

/-- Real value denoted by a `NavCost`. -/
noncomputable def toReal (x : NavCost) : ℝ := (x.units : ℝ) + (x.diags : ℝ) * Real.sqrt 2

instance : Add NavCost := ⟨fun x y => ⟨x.units + y.units, x.diags + y.diags⟩⟩

instance : Zero NavCost := ⟨⟨0, 0⟩⟩

/-- Decidable comparison of `units₁ + diags₁ * sqrt 2 ≤ units₂ + diags₂ * sqrt 2`,
decided by integer arithmetic (squaring out the `sqrt 2`). -/
def le (x y : NavCost) : Prop :=
  (0 ≤ (y.diags : ℤ) - x.diags ∧
    ((x.units : ℤ) - y.units ≤ 0 ∨
      ((x.units : ℤ) - y.units) ^ 2 ≤ 2 * ((y.diags : ℤ) - x.diags) ^ 2)) ∨
  ((y.diags : ℤ) - x.diags < 0 ∧ (x.units : ℤ) - y.units ≤ 0 ∧
    2 * ((y.diags : ℤ) - x.diags) ^ 2 ≤ ((x.units : ℤ) - y.units) ^ 2)

instance (x y : NavCost) : Decidable (le x y) := by
  unfold le; exact inferInstance

/-- Strict comparison, defined from `le`. -/
def lt (x y : NavCost) : Prop := ¬ le y x

instance (x y : NavCost) : Decidable (lt x y) := by
  unfold lt; exact inferInstance

end NavCost



/-!
Shared A* search core (spec section 4.3: "Both pathfinders share: a
priority-queue discipline over (cost, tie-break, node-id) tuples; a
came-from map for path reconstruction").

The came-from map and the final "walk parent links from finish back to
start, then reverse" reconstruction are modelled by carrying, in each
open-set entry, the reversed chain of parent links (head = the entry's
node); reconstruction reverses it.  The closed set's "one visited flag
and one best-known-g per tile" is modelled by the visited set together
with the discipline of skipping a popped entry whose node was already
expanded; with the spec's consistent heuristics both disciplines pop
each node at its best known g and return identical results.
-/
/-- One open-set record: a node, the accumulated path cost g from the
start to that node, and the reversed parent-link chain (head is the
node itself, last element is the start node). -/
structure Entry (α : Type) where
  node : α
  g : NavCost
  rpath : List α
deriving DecidableEq, Repr

/-- Outcome of a search: the C functions return a bool and, only on
success, write the traversal order and total cost to the out
parameters.  `noRoute` carries nothing - no partial output exists.
`fuelOut` is the model's marker for exceeding the iteration bound; it
is proven unreachable for the bounds the pathfinders use. -/
inductive SearchResult (α : Type) where
  | found (path : List α) (cost : NavCost)
  | noRoute
  | fuelOut
deriving DecidableEq, Repr

/-- Priority of an entry: f = g + h (spec section 4.1). -/
def fval {α : Type} (h : α → NavCost) (e : Entry α) : NavCost := e.g + h e.node

/-- Open-set priority order: by f = g + h, with ties broken by
preferring the node with the lower h (spec sections 4.1 and 4.2). -/
def entryLE {α : Type} (h : α → NavCost) (e1 e2 : Entry α) : Prop :=
  NavCost.lt (fval h e1) (fval h e2) ∨
    (fval h e1 = fval h e2 ∧ NavCost.le (h e1.node) (h e2.node))

instance {α : Type} (h : α → NavCost) (e1 e2 : Entry α) [DecidableEq α] :
    Decidable (entryLE h e1 e2) := by
  unfold entryLE; exact inferInstance

/-- Remove a minimum-priority entry from the open set (the earliest
entry among those of least priority), returning it and the rest. -/
def popMin {α : Type} [DecidableEq α] (h : α → NavCost) :
    List (Entry α) → Option (Entry α × List (Entry α))
  | [] => none
  | e :: rest =>
    match popMin h rest with
    | none => some (e, [])
    | some (m, rest') =>
      if entryLE h e m then some (e, rest) else some (m, e :: rest')

/-- The A* main loop, shared by both pathfinders (spec sections 4.1,
4.2): pop the open-set minimum; succeed when the finish node is popped;
skip nodes already expanded; otherwise mark the node visited and push
all its successors; fail when the open set empties.  The fuel argument
models the bound "the search is bounded by the field (or graph) size". -/
def astarLoop {α : Type} [DecidableEq α] (succ : α → List (α × NavCost))
    (h : α → NavCost) (goal : α) :
    Nat → List (Entry α) → Finset α → SearchResult α
  | 0, _, _ => .fuelOut
  | fuel + 1, frontier, visited =>
    match popMin h frontier with
    | none => .noRoute
    | some (e, rest) =>
      if e.node = goal then .found e.rpath.reverse e.g
      else if e.node ∈ visited then astarLoop succ h goal fuel rest visited
      else
        astarLoop succ h goal fuel
          (rest ++ (succ e.node).map fun bw => ⟨bw.1, e.g + bw.2, bw.1 :: e.rpath⟩)
          (insert e.node visited)

/-- Initial open set from the start entries (node plus initial g). -/
def initFrontier {α : Type} (init : List (α × NavCost)) : List (Entry α) :=
  init.map fun ag => ⟨ag.1, ag.2, [ag.1]⟩

/-- A valid reversed route: the list (head = final node, last = a start
node) follows successor edges, and the cost is the initial g of the
start node plus the traversed edge weights.  This is the ground-truth
notion of "a route exists" that the search is measured against. -/
inductive ValidRev {α : Type} (init : List (α × NavCost))
    (succ : α → List (α × NavCost)) : List α → NavCost → Prop
  | base {a : α} {g0 : NavCost} (hmem : (a, g0) ∈ init) : ValidRev init succ [a] g0
  | step {b : α} {rest : List α} {g : NavCost} {c : α} {w : NavCost}
      (hprev : ValidRev init succ (b :: rest) g) (hedge : (c, w) ∈ succ b) :
      ValidRev init succ (c :: b :: rest) (g + w)

/-- Forward edge chain: consecutive elements of the list are joined by
successor edges with the recorded weights. -/
inductive EdgeChain {α : Type} (succ : α → List (α × NavCost)) :
    List α → List NavCost → Prop
  | single (a : α) : EdgeChain succ [a] []
  | cons {a b : α} {w : NavCost} {rest : List α} {ws : List NavCost}
      (hedge : (b, w) ∈ succ a) (hrest : EdgeChain succ (b :: rest) ws) :
      EdgeChain succ (a :: b :: rest) (w :: ws)

/-- Total of a list of edge weights. -/
def sumCosts (ws : List NavCost) : NavCost := ws.foldr (· + ·) 0

/-- Invariant of the A* loop.  `sound`: every open entry carries a valid
route ending at its node with cost g.  `vis`: every expanded node was
expanded at an optimal g, and each of its outgoing edges is covered by
the closed set or by an open entry at most one relaxation away.  `ini`:
every unexpanded start node still has its initial entry available.
`gnv`: the finish node is never marked expanded (popping it returns). -/
structure AStarInv {α : Type} (init : List (α × NavCost))
    (succ : α → List (α × NavCost)) (h : α → NavCost) (goal : α)
    (frontier : List (Entry α)) (visited : Finset α) : Prop where
  sound : ∀ e ∈ frontier, ValidRev init succ e.rpath e.g ∧ e.rpath.head? = some e.node
  vis : ∀ v ∈ visited, ∃ gv : NavCost,
    (∀ rp c, ValidRev init succ rp c → rp.head? = some v →
      NavCost.toReal gv ≤ NavCost.toReal c) ∧
    (∀ zw ∈ succ v, zw.1 ∈ visited ∨ ∃ e ∈ frontier, e.node = zw.1 ∧
      NavCost.toReal e.g ≤ NavCost.toReal gv + NavCost.toReal zw.2)
  ini : ∀ ag ∈ init, ag.1 ∉ visited → ∃ e ∈ frontier, e.node = ag.1 ∧
    NavCost.toReal e.g ≤ NavCost.toReal ag.2
  gnv : goal ∉ visited

/-- Consistency of a heuristic with respect to the successor relation:
crossing an edge can decrease h by at most the edge weight. -/
def Consistent {α : Type} (succ : α → List (α × NavCost)) (h : α → NavCost) : Prop :=
  ∀ (b : α) (cw : α × NavCost), cw ∈ succ b →
    NavCost.toReal (h b) ≤ NavCost.toReal cw.2 + NavCost.toReal (h cw.1)

/-!
Grid Pathfinder (spec section 4.1), modelled from the spec: the
implementation file `a_star.c` is not part of the repository snapshot;
only its interface (`AStar_GridPath` in `a_star.h`) is.  The model
follows section 4.1 of the spec:

* classic A* over the 8-connected tile grid (4 orthogonal + 4 diagonal
  neighbors);
* per-step cost of entering a tile = that tile's cost-field value,
  diagonal moves additionally scaled by sqrt 2;
* the reserved maximum value of the `uint8_t` cost field (255) denotes
  "untraversable" (spec section 3's cost-field invariant);
* diagonal movement is disallowed when both orthogonal corner tiles
  adjoining the diagonal are untraversable;
* heuristic = octile distance to the finish tile;
* start == finish succeeds immediately; an untraversable or
  out-of-bounds start or finish fails (sections 4.1 and 7: the model
  validates at the boundary as the spec prescribes for a
  reimplementation).

The fixed field resolution FIELD_RES_R x FIELD_RES_C (from the external
`nav_data.h`) is carried as the two parameters R and C; a cost field is
a total function on coordinates, read only inside the bounds.  The
`chunk` and `layer` parameters of the C signature are kept: the chunk
coordinate is "for diagnostics/context, not used in the search itself"
(spec section 4.1) and the layer selects which cost field the caller
passes, so neither influences the search.
-/
/-- Reserved maximum value of a `uint8_t` cost field: untraversable. -/
def COST_IMPASSABLE : Nat := 255

/-- The 8-connected neighborhood: 4 orthogonal and 4 diagonal offsets. -/
def gridDeltas : List (ℤ × ℤ) :=
  [(-1, -1), (-1, 0), (-1, 1), (0, -1), (0, 1), (1, -1), (1, 0), (1, 1)]

/-- A coordinate is inside the field's fixed resolution. -/
def inBounds (R C : Nat) (p : ℤ × ℤ) : Prop :=
  0 ≤ p.1 ∧ p.1 < R ∧ 0 ≤ p.2 ∧ p.2 < C

instance (R C : Nat) (p : ℤ × ℤ) : Decidable (inBounds R C p) := by
  unfold inBounds; exact inferInstance

/-- Valid successor moves from a tile: each of the 8 neighbors that is
in bounds and traversable, subject to the corner-cutting rule for the
diagonal moves; the edge weight is the entered tile's cost, scaled by
sqrt 2 for a diagonal move. -/
def gridSucc (R C : Nat) (field : ℤ → ℤ → Nat) (p : ℤ × ℤ) :
    List ((ℤ × ℤ) × NavCost) :=
  gridDeltas.filterMap fun d =>
    let q : ℤ × ℤ := (p.1 + d.1, p.2 + d.2)
    if inBounds R C q ∧ field q.1 q.2 ≠ COST_IMPASSABLE ∧
        (d.1 ≠ 0 ∧ d.2 ≠ 0 →
          ¬(field p.1 q.2 = COST_IMPASSABLE ∧ field q.1 p.2 = COST_IMPASSABLE))
    then some (q, if d.1 ≠ 0 ∧ d.2 ≠ 0
      then ⟨0, field q.1 q.2⟩ else ⟨field q.1 q.2, 0⟩)
    else none

/-- Octile-distance heuristic to the finish tile:
`max dr dc - min dr dc` orthogonal steps plus `min dr dc` diagonal
steps (spec glossary: "admissible heuristic distance metric for
8-connected grids combining orthogonal and diagonal movement costs"). -/
def octile (finish p : ℤ × ℤ) : NavCost :=
  ⟨max (finish.1 - p.1).natAbs (finish.2 - p.2).natAbs -
    min (finish.1 - p.1).natAbs (finish.2 - p.2).natAbs,
   min (finish.1 - p.1).natAbs (finish.2 - p.2).natAbs⟩

/-- Modelled from the spec: `AStar_GridPath` of the missing `a_star.c`.
Finds the shortest path in a rectangular cost field; returns whether a
path was found and, on success, the tiles to be traversed in order
together with the total cost (`a_star.h`).  The iteration bound
`9 * (R * C) + 2` exceeds one initial entry plus nine times the field
size, which theorem `astarLoop_no_fuelOut` shows is never exhausted. -/
def AStar_GridPath (R C : Nat) (start finish chunk : ℤ × ℤ)
    (field : ℤ → ℤ → Nat) (layer : Nat) : SearchResult (ℤ × ℤ) :=
  if inBounds R C start ∧ inBounds R C finish ∧
      field start.1 start.2 ≠ COST_IMPASSABLE ∧
      field finish.1 finish.2 ≠ COST_IMPASSABLE
  then astarLoop (gridSucc R C field) (octile finish) finish (9 * (R * C) + 2)
    (initFrontier [(start, 0)]) ∅
  else .noRoute

/-- Real octile value as a function of the two natural leg lengths. -/
noncomputable def oreal (a b : Nat) : ℝ :=
  (max a b : ℝ) + (Real.sqrt 2 - 1) * (min a b : ℝ)

/-- Cost-field well-formedness (spec section 3): the reserved maximum
value denotes untraversable; any other value is at least 1. -/
def WellFormedField (field : ℤ → ℤ → Nat) : Prop :=
  ∀ r c : ℤ, field r c = COST_IMPASSABLE ∨ 1 ≤ field r c

/-- The finite set of in-bounds coordinates of an R x C field. -/
def gridBox (R C : Nat) : Finset (ℤ × ℤ) :=
  (Finset.Ico (0 : ℤ) R) ×ˢ (Finset.Ico (0 : ℤ) C)

/-- Tile adjacency (spec section 3): two coordinates are adjacent when
they differ by one step in at most one axis (orthogonal) or one step in
both axes (diagonal). -/
def GridAdjacent (a b : ℤ × ℤ) : Prop :=
  a ≠ b ∧ (b.1 - a.1).natAbs ≤ 1 ∧ (b.2 - a.2).natAbs ≤ 1

/-- All-ones 10 x 10 cost field of the spec's first scenario. -/
def onesField : ℤ → ℤ → Nat := fun _ _ => 1

/-- The spec's second scenario: a single-column wall of untraversable
tiles at column 5 spanning all rows. -/
def wallField : ℤ → ℤ → Nat := fun _ c => if c = 5 then COST_IMPASSABLE else 1

/-!
Portal-Graph Pathfinder (spec section 4.2), modelled from the spec: the
implementation file `a_star.c` is absent; only the declaration
`AStar_PortalGraphPath` in `a_star.h` is available.  Portals are
identified by node ids.  The opaque `struct nav_private` context is
modelled as the data the spec says it holds: the per-layer portal set,
each portal's owning chunk and representative tile position, the
precomputed weighted portal adjacency, and the per-layer, per-chunk
cost fields.  The search "begins from a synthetic expansion: every
portal belonging to the start's chunk is a candidate first hop, reached
at a cost equal to the Grid Pathfinder's computed intra-chunk cost from
the start tile to that portal's representative position (computed on
demand)".

The spec's heuristic ("straight-line (Euclidean) distance ... scaled to
stay ≤ the true minimum per-tile cost so admissibility holds") involves
square roots of arbitrary sums and is not exactly representable in the
cost domain; it is modelled as a heuristic parameter, and the theorems
assume exactly the property the spec asserts for it (consistency with
the edge weights).  The zero heuristic witnesses that assumption.
-/
/-- Global tile address: chunk coordinate plus local tile coordinate
(`struct tile_desc` of the C interface). -/
structure TileDesc where
  chunk : ℤ × ℤ
  tile : ℤ × ℤ
deriving DecidableEq, Repr

/-- Modelled from the spec: the navigation context `struct nav_private`
(external to the missing `a_star.c`), holding one layer's portal graph
and cost fields as described in spec sections 2, 3 and 4.2. -/
structure NavPrivate where
  fieldResR : Nat
  fieldResC : Nat
  portals : List Nat
  portalChunk : Nat → ℤ × ℤ
  portalPos : Nat → ℤ × ℤ
  portalAdj : Nat → List (Nat × NavCost)
  costField : Nat → (ℤ × ℤ) → (ℤ → ℤ → Nat)

/-- Modelled from the spec: the synthetic start expansion.  Every
portal of the start tile's chunk reachable by the Grid Pathfinder is a
candidate first hop, at the grid-computed intra-chunk cost. -/
def portalInit (priv : NavPrivate) (layer : Nat) (startTile : TileDesc) :
    List (Nat × NavCost) :=
  (priv.portals.filter fun pid => priv.portalChunk pid = startTile.chunk).filterMap
    fun pid =>
      match AStar_GridPath priv.fieldResR priv.fieldResC startTile.tile
          (priv.portalPos pid) startTile.chunk
          (priv.costField layer startTile.chunk) layer with
      | .found _ c0 => some (pid, c0)
      | _ => none

/-- Largest successor-list length over the portal set. -/
def portalDegBound (priv : NavPrivate) : Nat :=
  priv.portals.foldr (fun p acc => max (priv.portalAdj p).length acc) 0

/-- Iteration bound for the portal search: initial candidates plus one
more than the degree bound per portal, plus one. -/
def portalFuel (priv : NavPrivate) : Nat :=
  priv.portals.length + (portalDegBound priv + 1) * priv.portals.length + 1

/-- Modelled from the spec: `AStar_PortalGraphPath` of the missing
`a_star.c`.  Finds the shortest path between a tile and a node in a
portal graph; on success the result holds the portal nodes to be
traversed, in order, and the aggregate cost (`a_star.h`, spec section
4.2).  The heuristic is passed as a parameter (see the section
comment). -/
def AStar_PortalGraphPath (startTile : TileDesc) (finish : Nat) (priv : NavPrivate)
    (layer : Nat) (h : Nat → NavCost) : SearchResult Nat :=
  astarLoop priv.portalAdj h finish (portalFuel priv)
    (initFrontier (portalInit priv layer startTile)) ∅

/-- Portal-graph well-formedness: every edge of a listed portal leads
to a listed portal (the graph is self-contained). -/
def NavWellFormed (priv : NavPrivate) : Prop :=
  ∀ p ∈ priv.portals, ∀ qw ∈ priv.portalAdj p, qw.1 ∈ priv.portals

/-- Empty portal context used as a concrete disconnected witness. -/
def emptyNav : NavPrivate :=
  ⟨1, 1, [], fun _ => (0, 0), fun _ => (0, 0), fun _ => [], fun _ _ => fun _ _ => 1⟩

/-- Two-portal demo context: portal 0 in the start chunk, one weighted
edge to portal 1 in the adjacent chunk. -/
def demoNav : NavPrivate :=
  ⟨2, 2, [0, 1],
   fun pid => if pid = 0 then (0, 0) else (0, 1),
   fun _ => (0, 0),
   fun pid => if pid = 0 then [(1, ⟨3, 0⟩)] else [],
   fun _ _ => fun _ _ => 1⟩

/-!
Storage sites (`src/game/storage_site.c`).  A storage site's state
holds three per-resource integer tables: capacity, current and desired
(`struct ss_state`).  The model represents each `khash` table as a
partial map from resource names to values; `ss_state_get_key` leaves
the caller's default in place when the key is absent (the C callers of
`constrain_desired` initialize both locals to 0), and
`ss_state_set_key` inserts or overwrites.  The per-uid entity state
table, the global per-faction tables (which only aggregate deltas), the
change-event notification and allocation failure are orthogonal to the
clamping behavior and are not modelled.
-/
/-- One storage site's per-resource tables (`struct ss_state`). -/
structure SsState where
  capacity : String → Option Int
  curr : String → Option Int
  desired : String → Option Int

/-- Reads a key, keeping the caller-supplied default when absent
(`ss_state_get_key` leaves `*out` untouched and returns false). -/
def ss_state_get_key (table : String → Option Int) (name : String) (dflt : Int) : Int :=
  (table name).getD dflt

/-- Inserts or overwrites a key (`ss_state_set_key`). -/
def ss_state_set_key (table : String → Option Int) (name : String) (val : Int) :
    String → Option Int :=
  fun k => if k = name then some val else table k

/-- `constrain_desired`: reads capacity and desired with default 0,
clamps desired with `MIN` against the capacity and then `MAX` against
0, and stores the result. -/
def constrain_desired (ss : SsState) (rname : String) : SsState :=
  let cap := ss_state_get_key ss.capacity rname 0
  let desired := ss_state_get_key ss.desired rname 0
  let desired2 := min desired cap
  let desired3 := max desired2 0
  { ss with desired := ss_state_set_key ss.desired rname desired3 }

/-- `G_StorageSite_SetDesired`: stores the requested desired value,
then constrains it.  (The uid lookup of the entity's state is modelled
by passing the state directly.) -/
def G_StorageSite_SetDesired (ss : SsState) (rname : String) (des : Int) : SsState :=
  constrain_desired { ss with desired := ss_state_set_key ss.desired rname des } rname

/-- `G_StorageSite_SetCapacity`: stores the new capacity (the global
per-faction capacity-delta bookkeeping does not touch the site's own
tables), then constrains the desired value. -/
def G_StorageSite_SetCapacity (ss : SsState) (rname : String) (mx : Int) : SsState :=
  constrain_desired { ss with capacity := ss_state_set_key ss.capacity rname mx } rname

/-- The empty storage-site state (`ss_state_init`). -/
def ssEmpty : SsState := ⟨fun _ => none, fun _ => none, fun _ => none⟩

/-!
Formation cell grid (`src/game/formation.c`).  `ncols` computes
`ceilf(sqrtf(nunits / RANK_WIDTH_RATIO))` with RANK_WIDTH_RATIO = 4.0f
(resp. COLUMN_WIDTH_RATIO = 0.25f): the division is float division, so
the value is the exact real ceiling of sqrt(n/4) (resp. sqrt(4n)) for
the unit counts in range.  `nrows` computes
`ceilf(nunits / ncols(type, nunits))`: both operands are `size_t`, so
the division TRUNCATES before `ceilf` sees it, and `ceilf` of an
already-integral value is the identity - `nrows` is the floor, not the
ceiling, of n / ncols.  The model mirrors this exactly: real ceilings
for `ncols` (witnessed by the least-k characterizations below) and
natural-number division for `nrows`.
-/
/-- Ceiling of the square root of a natural number. -/
def ceilSqrt (n : Nat) : Nat :=
  if Nat.sqrt n * Nat.sqrt n = n then Nat.sqrt n else Nat.sqrt n + 1

/-- `enum formation_type`. -/
inductive FormationType where
  | rank
  | column
deriving DecidableEq, Repr

/-- `ncols`: ceil(sqrt(nunits / RANK_WIDTH_RATIO)) for a rank formation
(ratio 4.0) and ceil(sqrt(nunits / COLUMN_WIDTH_RATIO)) for a column
formation (ratio 0.25); ceil(sqrt(n/4)) equals ceil(ceil(sqrt n) / 2),
and ceil(sqrt(n/0.25)) equals ceil(sqrt(4n)) - see the least-k
characterizations below. -/
def ncols : FormationType → Nat → Nat
  | .rank, nunits => (ceilSqrt nunits + 1) / 2
  | .column, nunits => ceilSqrt (4 * nunits)

/-- `nrows`: `ceilf(nunits / ncols(type, nunits))` where the division
is integer (size_t) division, i.e. the floor of the quotient. -/
def nrows (type : FormationType) (nunits : Nat) : Nat :=
  nunits / ncols type nunits

/-- The cell-grid dimensions computed by `G_Formation_Create` for its
`kh_size(ents)` units (it always builds a FORMATION_RANK formation). -/
def G_Formation_Create_dims (nunits : Nat) : Nat × Nat :=
  (nrows .rank nunits, ncols .rank nunits)

namespace NavCost

theorem add_def (x y : NavCost) : x + y = ⟨x.units + y.units, x.diags + y.diags⟩ := rfl

@[simp] theorem zero_units : (0 : NavCost).units = 0 := rfl

@[simp] theorem zero_diags : (0 : NavCost).diags = 0 := rfl

@[simp] theorem add_units (x y : NavCost) : (x + y).units = x.units + y.units := rfl

@[simp] theorem add_diags (x y : NavCost) : (x + y).diags = x.diags + y.diags := rfl

theorem sqrt_two_pos : (0 : ℝ) < Real.sqrt 2 := by
  have := Real.sqrt_pos.mpr (by norm_num : (0:ℝ) < 2)
  exact this

theorem sq_sqrt_two : Real.sqrt 2 ^ 2 = 2 := by
  rw [Real.sq_sqrt]; norm_num

/-- The integer comparison agrees with the real-number order. -/
theorem le_iff_toReal {x y : NavCost} : le x y ↔ toReal x ≤ toReal y := by
  have hs := sqrt_two_pos
  have hs2 := sq_sqrt_two
  set P : ℤ := (x.units : ℤ) - y.units with hP
  set Q : ℤ := (y.diags : ℤ) - x.diags with hQ
  have hp : ((P : ℝ)) = (x.units : ℝ) - y.units := by rw [hP]; push_cast; ring
  have hq : ((Q : ℝ)) = (y.diags : ℝ) - x.diags := by rw [hQ]; push_cast; ring
  have hgoal : (toReal x ≤ toReal y) ↔ ((P : ℝ) ≤ (Q : ℝ) * Real.sqrt 2) := by
    unfold toReal
    rw [hp, hq]
    constructor <;> intro h <;> nlinarith
  rw [hgoal]
  unfold le
  rw [← hP, ← hQ]
  constructor
  · rintro (⟨hq0, hp0 | hsq⟩ | ⟨hq0, hp0, hsq⟩)
    · have h1 : ((P : ℝ)) ≤ 0 := by exact_mod_cast hp0
      have h2 : (0 : ℝ) ≤ (Q : ℝ) := by exact_mod_cast hq0
      nlinarith [hs.le]
    · have h1 : ((P : ℝ)) ^ 2 ≤ 2 * (Q : ℝ) ^ 2 := by exact_mod_cast hsq
      have h2 : (0 : ℝ) ≤ (Q : ℝ) := by exact_mod_cast hq0
      nlinarith [hs.le, sq_nonneg ((P : ℝ) - (Q : ℝ) * Real.sqrt 2),
        mul_nonneg h2 hs.le]
    · have h1 : ((P : ℝ)) ≤ 0 := by exact_mod_cast hp0
      have h2 : ((Q : ℝ)) < 0 := by exact_mod_cast hq0
      have h3 : 2 * ((Q : ℝ)) ^ 2 ≤ (P : ℝ) ^ 2 := by exact_mod_cast hsq
      nlinarith [hs.le, sq_nonneg ((P : ℝ) - (Q : ℝ) * Real.sqrt 2),
        mul_pos (neg_pos.mpr h2) hs]
  · intro key
    by_cases hq0 : 0 ≤ Q
    · by_cases hp0 : P ≤ 0
      · exact Or.inl ⟨hq0, Or.inl hp0⟩
      · push_neg at hp0
        refine Or.inl ⟨hq0, Or.inr ?_⟩
        have h1 : (0 : ℝ) < (P : ℝ) := by exact_mod_cast hp0
        have h2 : (0 : ℝ) ≤ (Q : ℝ) := by exact_mod_cast hq0
        have : ((P : ℝ)) ^ 2 ≤ 2 * (Q : ℝ) ^ 2 := by nlinarith
        exact_mod_cast this
    · push_neg at hq0
      have h2 : ((Q : ℝ)) < 0 := by exact_mod_cast hq0
      have h1 : ((P : ℝ)) < 0 := by
        calc (P : ℝ) ≤ (Q : ℝ) * Real.sqrt 2 := key
        _ < 0 := mul_neg_of_neg_of_pos h2 hs
      refine Or.inr ⟨hq0, ?_, ?_⟩
      · have : ((P : ℝ)) ≤ 0 := h1.le
        exact_mod_cast this
      · have hqs : ((Q : ℝ)) * Real.sqrt 2 < 0 := mul_neg_of_neg_of_pos h2 hs
        have hA : ((P : ℝ)) - (Q : ℝ) * Real.sqrt 2 ≤ 0 := by linarith
        have hB : ((P : ℝ)) + (Q : ℝ) * Real.sqrt 2 ≤ 0 := by linarith
        have hC : 0 ≤ (-(((P : ℝ)) - (Q : ℝ) * Real.sqrt 2)) * (-(((P : ℝ)) + (Q : ℝ) * Real.sqrt 2)) :=
          mul_nonneg (neg_nonneg.mpr hA) (neg_nonneg.mpr hB)
        have : 2 * ((Q : ℝ)) ^ 2 ≤ (P : ℝ) ^ 2 := by nlinarith [hC]
        exact_mod_cast this

theorem lt_iff_toReal {x y : NavCost} : lt x y ↔ toReal x < toReal y := by
  unfold lt
  rw [← not_le, not_iff_not, le_iff_toReal]

theorem toReal_add (x y : NavCost) : toReal (x + y) = toReal x + toReal y := by
  unfold toReal; simp only [add_units, add_diags]; push_cast; ring

theorem toReal_zero : toReal 0 = 0 := by
  unfold toReal; simp

theorem toReal_nonneg (x : NavCost) : 0 ≤ toReal x := by
  unfold toReal
  have := sqrt_two_pos
  positivity

theorem leRefl (x : NavCost) : le x x := le_iff_toReal.mpr (by exact le_rfl)

theorem leTrans {x y z : NavCost} (h1 : le x y) (h2 : le y z) : le x z :=
  le_iff_toReal.mpr ((le_iff_toReal.mp h1).trans (le_iff_toReal.mp h2))

theorem leTotal (x y : NavCost) : le x y ∨ le y x := by
  rcases le_total (toReal x) (toReal y) with h | h
  · exact Or.inl (le_iff_toReal.mpr h)
  · exact Or.inr (le_iff_toReal.mpr h)

/-- The real value determines the coefficients (since `sqrt 2` is irrational). -/
theorem toReal_inj {x y : NavCost} (h : toReal x = toReal y) : x = y := by
  unfold toReal at h
  by_cases hd : x.diags = y.diags
  · have : (x.units : ℝ) = y.units := by
      rw [hd] at h; linarith
    have hu : x.units = y.units := by exact_mod_cast this
    cases x; cases y; simp_all
  · exfalso
    have hne : ((x.diags : ℝ)) - (y.diags : ℝ) ≠ 0 := by
      intro hc
      apply hd
      have : (x.diags : ℝ) = y.diags := by linarith
      exact_mod_cast this
    have : Real.sqrt 2 = ((y.units : ℝ) - x.units) / ((x.diags : ℝ) - y.diags) := by
      field_simp
      linarith
    have hirr : Irrational (Real.sqrt 2) := irrational_sqrt_two
    apply hirr.ne_rat (((y.units : ℚ) - x.units) / ((x.diags : ℚ) - y.diags))
    rw [this]
    push_cast
    norm_num

theorem leAntisymm {x y : NavCost} (h1 : le x y) (h2 : le y x) : x = y :=
  toReal_inj (le_antisymm (le_iff_toReal.mp h1) (le_iff_toReal.mp h2))

end NavCost

theorem entryLE_refl {α : Type} (h : α → NavCost) (e : Entry α) : entryLE h e e :=
  Or.inr ⟨rfl, NavCost.leRefl _⟩

theorem entryLE_total {α : Type} (h : α → NavCost) (e1 e2 : Entry α) :
    entryLE h e1 e2 ∨ entryLE h e2 e1 := by
  rcases lt_trichotomy (NavCost.toReal (fval h e1)) (NavCost.toReal (fval h e2)) with hlt | heq | hgt
  · exact Or.inl (Or.inl (NavCost.lt_iff_toReal.mpr hlt))
  · have hf : fval h e1 = fval h e2 := NavCost.toReal_inj heq
    rcases NavCost.leTotal (h e1.node) (h e2.node) with hh | hh
    · exact Or.inl (Or.inr ⟨hf, hh⟩)
    · exact Or.inr (Or.inr ⟨hf.symm, hh⟩)
  · exact Or.inr (Or.inl (NavCost.lt_iff_toReal.mpr hgt))

theorem entryLE_trans {α : Type} (h : α → NavCost) {e1 e2 e3 : Entry α}
    (h12 : entryLE h e1 e2) (h23 : entryLE h e2 e3) : entryLE h e1 e3 := by
  rcases h12 with h12 | ⟨hf12, hh12⟩
  · rcases h23 with h23 | ⟨hf23, hh23⟩
    · exact Or.inl (NavCost.lt_iff_toReal.mpr
        ((NavCost.lt_iff_toReal.mp h12).trans (NavCost.lt_iff_toReal.mp h23)))
    · exact Or.inl (hf23 ▸ h12)
  · rcases h23 with h23 | ⟨hf23, hh23⟩
    · exact Or.inl (hf12 ▸ h23)
    · exact Or.inr ⟨hf12.trans hf23, NavCost.leTrans hh12 hh23⟩

theorem popMin_none_iff {α : Type} [DecidableEq α] (h : α → NavCost)
    (l : List (Entry α)) : popMin h l = none ↔ l = [] := by
  cases l with
  | nil => simp [popMin]
  | cons e rest =>
    simp only [popMin]
    constructor
    · intro hc
      exfalso
      match hrec : popMin h rest with
      | none => rw [hrec] at hc; cases hc
      | some (m, r) =>
        rw [hrec] at hc
        by_cases hle : entryLE h e m <;> simp [hle] at hc
    · intro hc; cases hc

/-- The popped entry has minimal priority: it was a member, everything
else survives into the rest, and it compares below every member. -/
theorem popMin_spec {α : Type} [DecidableEq α] (h : α → NavCost) :
    ∀ (l : List (Entry α)) (m : Entry α) (r : List (Entry α)),
      popMin h l = some (m, r) →
      m ∈ l ∧ (∀ x ∈ l, x = m ∨ x ∈ r) ∧ (∀ x ∈ r, x ∈ l) ∧
        (∀ x ∈ l, entryLE h m x) ∧ r.length + 1 = l.length
  | [], m, r => by simp [popMin]
  | e :: rest, m, r => by
    intro hpop
    unfold popMin at hpop
    match hrec : popMin h rest with
    | none =>
      rw [hrec] at hpop
      have hrest : rest = [] := (popMin_none_iff h rest).mp hrec
      subst hrest
      cases hpop
      refine ⟨by simp, by simp, by simp, ?_, by simp⟩
      intro x hx
      simp at hx
      subst hx
      exact entryLE_refl h _
    | some (m', rest') =>
      rw [hrec] at hpop
      obtain ⟨hmem', hcov', hsub', hmin', hlen'⟩ := popMin_spec h rest m' rest' hrec
      dsimp only at hpop
      by_cases hle : entryLE h e m'
      · rw [if_pos hle] at hpop
        cases hpop
        refine ⟨by simp, ?_, ?_, ?_, by simp⟩
        · intro x hx
          rcases List.mem_cons.mp hx with hx | hx
          · exact Or.inl hx
          · exact Or.inr hx
        · intro x hx; exact List.mem_cons_of_mem _ hx
        · intro x hx
          rcases List.mem_cons.mp hx with hx | hx
          · subst hx; exact entryLE_refl h _
          · exact entryLE_trans h hle (hmin' x hx)
      · rw [if_neg hle] at hpop
        cases hpop
        have hme : entryLE h m e := (entryLE_total h e m).resolve_left hle
        refine ⟨List.mem_cons_of_mem _ hmem', ?_, ?_, ?_, by simp [← hlen']⟩
        · intro x hx
          rcases List.mem_cons.mp hx with hx | hx
          · subst hx; exact Or.inr (List.mem_cons_self _ _)
          · rcases hcov' x hx with hx' | hx'
            · exact Or.inl hx'
            · exact Or.inr (List.mem_cons_of_mem _ hx')
        · intro x hx
          rcases List.mem_cons.mp hx with hx | hx
          · subst hx; exact List.mem_cons_self _ _
          · exact List.mem_cons_of_mem _ (hsub' x hx)
        · intro x hx
          rcases List.mem_cons.mp hx with hx | hx
          · subst hx; exact hme
          · exact hmin' x hx

theorem NavCost.addAssoc (x y z : NavCost) : x + y + z = x + (y + z) := by
  simp [NavCost.add_def, Nat.add_assoc]

theorem NavCost.addZero (x : NavCost) : x + 0 = x := by
  cases x; simp [NavCost.add_def]

theorem NavCost.zeroAdd (x : NavCost) : 0 + x = x := by
  cases x; simp [NavCost.add_def]

@[simp] theorem sumCosts_nil : sumCosts [] = 0 := rfl

@[simp] theorem sumCosts_cons (w : NavCost) (ws : List NavCost) :
    sumCosts (w :: ws) = w + sumCosts ws := rfl

theorem sumCosts_append_single (ws : List NavCost) (w : NavCost) :
    sumCosts (ws ++ [w]) = sumCosts ws + w := by
  induction ws with
  | nil => simp [NavCost.addZero, NavCost.zeroAdd]
  | cons a t ih => simp [ih, NavCost.addAssoc]

theorem ValidRev.ne_nil {α : Type} {init : List (α × NavCost)}
    {succ : α → List (α × NavCost)} {rp : List α} {c : NavCost}
    (h : ValidRev init succ rp c) : rp ≠ [] := by
  cases h <;> simp

/-- Every valid route begins (at the last element of the reversed list)
at a start node with its initial cost contribution. -/
theorem ValidRev.last_init {α : Type} {init : List (α × NavCost)}
    {succ : α → List (α × NavCost)} {rp : List α} {c : NavCost}
    (h : ValidRev init succ rp c) : ∃ a g0, (a, g0) ∈ init ∧ rp.getLast? = some a := by
  induction h with
  | base hmem => exact ⟨_, _, hmem, rfl⟩
  | step hprev hedge ih =>
    obtain ⟨a, g0, hmem, hlast⟩ := ih
    exact ⟨a, g0, hmem, by simpa using hlast⟩

/-- Every node on a valid route is either a start node or the target of
a successor edge from another node of the route. -/
theorem ValidRev.mem_cases {α : Type} {init : List (α × NavCost)}
    {succ : α → List (α × NavCost)} {rp : List α} {c : NavCost}
    (h : ValidRev init succ rp c) :
    ∀ x ∈ rp, (∃ g0, (x, g0) ∈ init) ∨ (∃ b w, b ∈ rp ∧ (x, w) ∈ succ b) := by
  induction h with
  | base hmem =>
    intro x hx
    simp at hx
    subst hx
    exact Or.inl ⟨_, hmem⟩
  | step hprev hedge ih =>
    intro x hx
    rcases List.mem_cons.mp hx with hx | hx
    · subst hx
      exact Or.inr ⟨_, _, List.mem_cons_of_mem _ (List.mem_cons_self _ _), hedge⟩
    · rcases ih x hx with hini | ⟨b, w, hb, hw⟩
      · exact Or.inl hini
      · exact Or.inr ⟨b, w, List.mem_cons_of_mem _ hb, hw⟩

/-- EdgeChain is stable under appending one more edge at the end. -/
theorem EdgeChain.append_edge {α : Type} {succ : α → List (α × NavCost)} :
    ∀ {xs : List α} {ws : List NavCost} {b c : α} {w : NavCost},
      EdgeChain succ xs ws → xs.getLast? = some b → (c, w) ∈ succ b →
      EdgeChain succ (xs ++ [c]) (ws ++ [w])
  | _, _, b, c, w, .single a, hlast, hedge => by
    simp at hlast
    subst hlast
    exact .cons hedge (.single c)
  | _, _, b, c, w, .cons hedge0 hrest, hlast, hedge => by
    have hlast' : _ := hlast
    simp only [List.getLast?_cons_cons] at hlast'
    have := EdgeChain.append_edge hrest hlast' hedge
    exact .cons hedge0 this

/-- Decompose a valid route into its start entry and its edge weights:
the total cost is the initial g plus the sum of the traversed weights. -/
theorem ValidRev.decomp {α : Type} {init : List (α × NavCost)}
    {succ : α → List (α × NavCost)} {rp : List α} {c : NavCost}
    (h : ValidRev init succ rp c) :
    ∃ p0 g0 ws, (p0, g0) ∈ init ∧ rp.reverse.head? = some p0 ∧
      EdgeChain succ rp.reverse ws ∧ c = g0 + sumCosts ws := by
  induction h with
  | base hmem =>
    exact ⟨_, _, [], hmem, rfl, .single _, (NavCost.addZero _).symm⟩
  | @step b rest g cnode w hprev hedge ih =>
    obtain ⟨p0, g0, ws, hmem, hhead, hchain, hcost⟩ := ih
    refine ⟨p0, g0, ws ++ [w], hmem, ?_, ?_, ?_⟩
    · have hne : (b :: rest).reverse ≠ [] := by simp
      rw [List.reverse_cons, List.head?_append_of_ne_nil _ hne]
      exact hhead
    · have hlast : (b :: rest).reverse.getLast? = some b := by
        rw [List.getLast?_reverse]
        rfl
      simpa using EdgeChain.append_edge hchain hlast hedge
    · rw [hcost, sumCosts_append_single, NavCost.addAssoc]

/-- Extend a valid route along a forward edge chain that begins at the
route's final node. -/
theorem ValidRev.walk {α : Type} {init : List (α × NavCost)}
    {succ : α → List (α × NavCost)} :
    ∀ {l : List α} {ws : List NavCost},
      EdgeChain succ l ws → ∀ {rp : List α} {g : NavCost} {b : α},
      ValidRev init succ rp g → rp.head? = some b → l.head? = some b →
      ValidRev init succ (l.tail.reverse ++ rp) (g + sumCosts ws)
  | _, _, .single a, rp, g, b, hvr, hrp, hl => by
    simp at hl
    simpa [NavCost.addZero] using hvr
  | _, _, .cons hedge hrest, rp, g, b, hvr, hrp, hl => by
    rename_i a c w rest ws
    simp at hl
    subst hl
    have hstep : ValidRev init succ (c :: rp) (g + w) := by
      cases rp with
      | nil => simp at hrp
      | cons b0 rtail =>
        simp at hrp
        subst hrp
        exact ValidRev.step hvr hedge
    have ih := ValidRev.walk hrest hstep (by rfl) (by rfl)
    have hlist : (c :: rest).reverse ++ rp = rest.reverse ++ (c :: rp) := by
      simp
    have hcost : g + sumCosts (w :: ws) = g + w + sumCosts ws := by
      simp [NavCost.addAssoc]
    rw [List.tail_cons] at ih ⊢
    rw [hlist, hcost]
    simpa using ih

/-- Reassemble a valid route from a start entry and an edge chain. -/
theorem ValidRev.of_chain {α : Type} {init : List (α × NavCost)}
    {succ : α → List (α × NavCost)} {l : List α} {ws : List NavCost}
    {p0 : α} {g0 : NavCost}
    (hchain : EdgeChain succ l ws) (hhead : l.head? = some p0)
    (hmem : (p0, g0) ∈ init) :
    ValidRev init succ l.reverse (g0 + sumCosts ws) := by
  have hbase : ValidRev init succ [p0] g0 := ValidRev.base hmem
  have := ValidRev.walk hchain hbase (by rfl) hhead
  cases l with
  | nil => simp at hhead
  | cons a tail =>
    simp at hhead
    subst hhead
    simpa using this

theorem entryLE_fval_le {α : Type} {h : α → NavCost} {e1 e2 : Entry α}
    (hle : entryLE h e1 e2) :
    NavCost.toReal (fval h e1) ≤ NavCost.toReal (fval h e2) := by
  rcases hle with hlt | ⟨heq, _⟩
  · exact (NavCost.lt_iff_toReal.mp hlt).le
  · rw [heq]

/-- Key reachability lemma: under the invariant, every valid route to a
not-yet-expanded node is covered by some open entry whose f-value is at
most the route's cost plus the heuristic at the route's end. -/
theorem astar_reach {α : Type} [DecidableEq α] {init : List (α × NavCost)}
    {succ : α → List (α × NavCost)} {h : α → NavCost} {goal : α}
    {frontier : List (Entry α)} {visited : Finset α}
    (hcons : Consistent succ h)
    (hinv : AStarInv init succ h goal frontier visited) :
    ∀ {rp : List α} {c : NavCost}, ValidRev init succ rp c →
    ∀ {z : α}, rp.head? = some z → z ∉ visited →
    ∃ e ∈ frontier, NavCost.toReal e.g + NavCost.toReal (h e.node) ≤
      NavCost.toReal c + NavCost.toReal (h z) := by
  intro rp c hvr
  induction hvr with
  | @base a g0 hmem =>
    intro z hz hnv
    simp at hz
    subst hz
    obtain ⟨e, hef, henode, heg⟩ := hinv.ini (a, g0) hmem hnv
    exact ⟨e, hef, by rw [henode]; linarith⟩
  | @step b rest g cnode w hprev hedge ih =>
    intro z hz hnv
    simp at hz
    subst hz
    by_cases hb : b ∈ visited
    · obtain ⟨gv, hopt, hcov⟩ := hinv.vis b hb
      have hgv : NavCost.toReal gv ≤ NavCost.toReal g := hopt _ _ hprev (by rfl)
      rcases hcov (cnode, w) hedge with hinvis | ⟨e, hef, henode, heg⟩
      · exact absurd hinvis hnv
      · refine ⟨e, hef, ?_⟩
        rw [henode, NavCost.toReal_add]
        linarith
    · obtain ⟨e, hef, hle⟩ := ih (by rfl) hb
      have hc := hcons b (cnode, w) hedge
      refine ⟨e, hef, ?_⟩
      rw [NavCost.toReal_add]
      simp only at hc
      linarith

/-- Main lemma: under the invariant and a consistent heuristic, a
successful search returns a valid route to the finish node whose cost
is less than or equal to the cost of every valid route to the finish
node. -/
theorem astarLoop_found {α : Type} [DecidableEq α] {init : List (α × NavCost)}
    {succ : α → List (α × NavCost)} {h : α → NavCost} {goal : α}
    (hcons : Consistent succ h) :
    ∀ (fuel : Nat) (frontier : List (Entry α)) (visited : Finset α),
    AStarInv init succ h goal frontier visited →
    ∀ {p : List α} {c : NavCost},
    astarLoop succ h goal fuel frontier visited = .found p c →
    (∃ rp, ValidRev init succ rp c ∧ rp.head? = some goal ∧ p = rp.reverse) ∧
    (∀ rp' c', ValidRev init succ rp' c' → rp'.head? = some goal →
      NavCost.toReal c ≤ NavCost.toReal c') := by
  intro fuel
  induction fuel with
  | zero => intro frontier visited hinv p c hrun; simp [astarLoop] at hrun
  | succ fuel ih =>
    intro frontier visited hinv p c hrun
    rw [astarLoop] at hrun
    match hpop : popMin h frontier with
    | none => rw [hpop] at hrun; cases hrun
    | some (m, rest) =>
      rw [hpop] at hrun
      obtain ⟨hmem, hcov, hsub, hmin, hlen⟩ := popMin_spec h frontier m rest hpop
      dsimp only at hrun
      by_cases hgoal : m.node = goal
      · rw [if_pos hgoal] at hrun
        cases hrun
        obtain ⟨hvr, hhead⟩ := hinv.sound m hmem
        constructor
        · exact ⟨m.rpath, hvr, by rw [hhead, hgoal], rfl⟩
        · intro rp' c' hvr' hhead'
          obtain ⟨e, hef, hle⟩ := astar_reach hcons hinv hvr' hhead' hinv.gnv
          have hm := entryLE_fval_le (hmin e hef)
          unfold fval at hm
          rw [NavCost.toReal_add, NavCost.toReal_add, hgoal] at hm
          linarith
      · rw [if_neg hgoal] at hrun
        by_cases hvis : m.node ∈ visited
        · rw [if_pos hvis] at hrun
          refine ih rest visited ?_ hrun
          refine ⟨fun e he => hinv.sound e (hsub e he), ?_, ?_, hinv.gnv⟩
          · intro v hv
            obtain ⟨gv, hopt, hcov'⟩ := hinv.vis v hv
            refine ⟨gv, hopt, ?_⟩
            intro zw hzw
            rcases hcov' zw hzw with hl | ⟨e, hef, henode, heg⟩
            · exact Or.inl hl
            · rcases hcov e hef with he | he
              · subst he
                exact Or.inl (henode ▸ hvis)
              · exact Or.inr ⟨e, he, henode, heg⟩
          · intro ag hag hnv
            obtain ⟨e, hef, henode, heg⟩ := hinv.ini ag hag hnv
            rcases hcov e hef with he | he
            · subst he
              exact absurd (henode ▸ hvis) hnv
            · exact ⟨e, he, henode, heg⟩
        · rw [if_neg hvis] at hrun
          refine ih _ _ ?_ hrun
          obtain ⟨hvrm, hheadm⟩ := hinv.sound m hmem
          have hmopt : ∀ rp c0, ValidRev init succ rp c0 → rp.head? = some m.node →
              NavCost.toReal m.g ≤ NavCost.toReal c0 := by
            intro rp c0 hvr hh
            obtain ⟨e, hef, hle⟩ := astar_reach hcons hinv hvr hh hvis
            have hm := entryLE_fval_le (hmin e hef)
            unfold fval at hm
            rw [NavCost.toReal_add, NavCost.toReal_add] at hm
            linarith
          refine ⟨?_, ?_, ?_, ?_⟩
          · intro e he
            rcases List.mem_append.mp he with he | he
            · exact hinv.sound e (hsub e he)
            · obtain ⟨bw, hbw, hbe⟩ := List.mem_map.mp he
              subst hbe
              constructor
              · cases hrp : m.rpath with
                | nil => rw [hrp] at hheadm; cases hheadm
                | cons x t =>
                  rw [hrp] at hheadm
                  simp at hheadm
                  subst hheadm
                  rw [hrp] at hvrm
                  exact ValidRev.step hvrm hbw
              · rfl
          · intro v hv
            rcases Finset.mem_insert.mp hv with hveq | hv
            · subst hveq
              refine ⟨m.g, hmopt, ?_⟩
              intro zw hzw
              refine Or.inr ⟨⟨zw.1, m.g + zw.2, zw.1 :: m.rpath⟩, ?_, rfl, ?_⟩
              · exact List.mem_append_right _ (List.mem_map.mpr ⟨zw, hzw, rfl⟩)
              · rw [NavCost.toReal_add]
            · obtain ⟨gv, hopt, hcov'⟩ := hinv.vis v hv
              refine ⟨gv, hopt, ?_⟩
              intro zw hzw
              rcases hcov' zw hzw with hl | ⟨e, hef, henode, heg⟩
              · exact Or.inl (Finset.mem_insert_of_mem hl)
              · rcases hcov e hef with he | he
                · subst he
                  exact Or.inl (henode ▸ Finset.mem_insert_self _ _)
                · exact Or.inr ⟨e, List.mem_append_left _ he, henode, heg⟩
          · intro ag hag hnv
            have hnv' : ag.1 ∉ visited := fun hc => hnv (Finset.mem_insert_of_mem hc)
            have hne : ag.1 ≠ m.node := fun hc => hnv (hc ▸ Finset.mem_insert_self _ _)
            obtain ⟨e, hef, henode, heg⟩ := hinv.ini ag hag hnv'
            rcases hcov e hef with he | he
            · subst he
              exact absurd henode.symm hne
            · exact ⟨e, List.mem_append_left _ he, henode, heg⟩
          · intro hc
            rcases Finset.mem_insert.mp hc with hc | hc
            · exact hgoal hc.symm
            · exact hinv.gnv hc

/-- Soundness alone (no heuristic assumptions): a successful search
returns a valid route from a start entry to the finish node. -/
theorem astarLoop_sound {α : Type} [DecidableEq α] {init : List (α × NavCost)}
    {succ : α → List (α × NavCost)} {h : α → NavCost} {goal : α} :
    ∀ (fuel : Nat) (frontier : List (Entry α)) (visited : Finset α),
    (∀ e ∈ frontier, ValidRev init succ e.rpath e.g ∧ e.rpath.head? = some e.node) →
    ∀ {p : List α} {c : NavCost},
    astarLoop succ h goal fuel frontier visited = .found p c →
    ∃ rp, ValidRev init succ rp c ∧ rp.head? = some goal ∧ p = rp.reverse := by
  intro fuel
  induction fuel with
  | zero => intro frontier visited hs p c hrun; simp [astarLoop] at hrun
  | succ fuel ih =>
    intro frontier visited hs p c hrun
    rw [astarLoop] at hrun
    match hpop : popMin h frontier with
    | none => rw [hpop] at hrun; cases hrun
    | some (m, rest) =>
      rw [hpop] at hrun
      obtain ⟨hmem, hcov, hsub, hmin, hlen⟩ := popMin_spec h frontier m rest hpop
      dsimp only at hrun
      by_cases hgoal : m.node = goal
      · rw [if_pos hgoal] at hrun
        cases hrun
        obtain ⟨hvr, hhead⟩ := hs m hmem
        exact ⟨m.rpath, hvr, by rw [hhead, hgoal], rfl⟩
      · rw [if_neg hgoal] at hrun
        by_cases hvis : m.node ∈ visited
        · rw [if_pos hvis] at hrun
          exact ih rest visited (fun e he => hs e (hsub e he)) hrun
        · rw [if_neg hvis] at hrun
          refine ih _ _ ?_ hrun
          intro e he
          rcases List.mem_append.mp he with he | he
          · exact hs e (hsub e he)
          · obtain ⟨bw, hbw, hbe⟩ := List.mem_map.mp he
            subst hbe
            obtain ⟨hvrm, hheadm⟩ := hs m hmem
            constructor
            · cases hrp : m.rpath with
              | nil => rw [hrp] at hheadm; cases hheadm
              | cons x t =>
                rw [hrp] at hheadm
                simp at hheadm
                subst hheadm
                rw [hrp] at hvrm
                exact ValidRev.step hvrm hbw
            · rfl

/-- Termination bound: starting from a frontier of nodes inside a
finite node set S closed under the successor relation, with successor
lists of length at most D, the loop never runs out of fuel when given
more than `frontier.length + (D+1) * S.card` steps.  Each iteration
either shrinks the open set or expands a fresh node of S. -/
theorem astarLoop_no_fuelOut {α : Type} [DecidableEq α]
    {succ : α → List (α × NavCost)} {h : α → NavCost} {goal : α}
    (S : Finset α) (D : Nat)
    (hlen : ∀ a ∈ S, (succ a).length ≤ D)
    (hclosed : ∀ a ∈ S, ∀ bw ∈ succ a, bw.1 ∈ S) :
    ∀ (fuel : Nat) (frontier : List (Entry α)) (visited : Finset α),
    (∀ e ∈ frontier, e.node ∈ S) → visited ⊆ S →
    frontier.length + (D + 1) * (S.card - visited.card) < fuel →
    astarLoop succ h goal fuel frontier visited ≠ .fuelOut := by
  intro fuel
  induction fuel with
  | zero => intro frontier visited hfS hvS hfuel; omega
  | succ fuel ih =>
    intro frontier visited hfS hvS hfuel
    rw [astarLoop]
    match hpop : popMin h frontier with
    | none => simp
    | some (m, rest) =>
      obtain ⟨hmem, hcov, hsub, hmin, hlen'⟩ := popMin_spec h frontier m rest hpop
      dsimp only
      by_cases hgoal : m.node = goal
      · rw [if_pos hgoal]; simp
      · rw [if_neg hgoal]
        by_cases hvis : m.node ∈ visited
        · rw [if_pos hvis]
          refine ih rest visited (fun e he => hfS e (hsub e he)) hvS (by omega)
        · rw [if_neg hvis]
          have hmS : m.node ∈ S := hfS m hmem
          have hpush : ((succ m.node).map
              (fun bw => (⟨bw.1, m.g + bw.2, bw.1 :: m.rpath⟩ : Entry α))).length ≤ D := by
            rw [List.length_map]
            exact hlen m.node hmS
          have hcard : visited.card < S.card := by
            refine Finset.card_lt_card ⟨hvS, ?_⟩
            intro hSv
            exact hvis (hSv hmS)
          have hinsert : (insert m.node visited).card = visited.card + 1 :=
            Finset.card_insert_of_not_mem hvis
          refine ih _ _ ?_ ?_ ?_
          · intro e he
            rcases List.mem_append.mp he with he | he
            · exact hfS e (hsub e he)
            · obtain ⟨bw, hbw, hbe⟩ := List.mem_map.mp he
              subst hbe
              exact hclosed m.node hmS bw hbw
          · intro v hv
            rcases Finset.mem_insert.mp hv with hv | hv
            · exact hv ▸ hmS
            · exact hvS hv
          · rw [List.length_append, hinsert]
            have hpush' : ((succ m.node).map
              (fun bw => (⟨bw.1, m.g + bw.2, bw.1 :: m.rpath⟩ : Entry α))).length ≤ D := hpush
            have hK : S.card - visited.card = (S.card - (visited.card + 1)) + 1 := by omega
            have hmul : (D + 1) * (S.card - visited.card) =
                (D + 1) * (S.card - (visited.card + 1)) + (D + 1) := by
              rw [hK, Nat.mul_succ]
            rw [hmul] at hfuel
            omega

/-- The initial frontier satisfies the full A* invariant. -/
theorem AStarInv.initial {α : Type} (init : List (α × NavCost))
    (succ : α → List (α × NavCost)) (h : α → NavCost) (goal : α) :
    AStarInv init succ h goal (initFrontier init) ∅ := by
  refine ⟨?_, ?_, ?_, ?_⟩
  · intro e he
    obtain ⟨ag, hag, hae⟩ := List.mem_map.mp he
    subst hae
    exact ⟨ValidRev.base hag, rfl⟩
  · intro v hv; cases hv
  · intro ag hag _
    exact ⟨⟨ag.1, ag.2, [ag.1]⟩, List.mem_map.mpr ⟨ag, hag, rfl⟩, rfl, le_rfl⟩
  · exact Finset.not_mem_empty _

/-- Characterization of a grid successor: it is one of the 8 adjacent
tiles, in bounds, traversable, subject to the corner-cutting rule, and
its edge weight is the entered tile's cost (scaled by sqrt 2 when the
move is diagonal). -/
theorem gridSucc_mem {R C : Nat} {field : ℤ → ℤ → Nat} {p q : ℤ × ℤ} {w : NavCost}
    (hmem : (q, w) ∈ gridSucc R C field p) :
    inBounds R C q ∧ field q.1 q.2 ≠ COST_IMPASSABLE ∧ q ≠ p ∧
      (q.1 - p.1).natAbs ≤ 1 ∧ (q.2 - p.2).natAbs ≤ 1 ∧
      ((q.1 ≠ p.1 ∧ q.2 ≠ p.2) →
        ¬(field p.1 q.2 = COST_IMPASSABLE ∧ field q.1 p.2 = COST_IMPASSABLE)) ∧
      w = (if q.1 ≠ p.1 ∧ q.2 ≠ p.2
        then (⟨0, field q.1 q.2⟩ : NavCost) else ⟨field q.1 q.2, 0⟩) := by
  unfold gridSucc at hmem
  obtain ⟨d, hd, hf⟩ := List.mem_filterMap.mp hmem
  have hdprops : d.1.natAbs ≤ 1 ∧ d.2.natAbs ≤ 1 ∧ ¬(d.1 = 0 ∧ d.2 = 0) := by
    simp only [gridDeltas, List.mem_cons, List.not_mem_nil, or_false] at hd
    rcases hd with h | h | h | h | h | h | h | h <;> subst h <;> exact ⟨by decide, by decide, by decide⟩
  obtain ⟨hd1, hd2, hd0⟩ := hdprops
  dsimp only at hf
  by_cases hcond : inBounds R C (p.1 + d.1, p.2 + d.2) ∧
      field (p.1 + d.1) (p.2 + d.2) ≠ COST_IMPASSABLE ∧
      (d.1 ≠ 0 ∧ d.2 ≠ 0 →
        ¬(field p.1 (p.2 + d.2) = COST_IMPASSABLE ∧ field (p.1 + d.1) p.2 = COST_IMPASSABLE))
  · rw [if_pos hcond] at hf
    obtain ⟨hq, hw⟩ := Prod.mk.injEq _ _ _ _ ▸ Option.some_inj.mp hf
    obtain ⟨hbnd, htrav, hcorner⟩ := hcond
    subst hq
    have e1 : (p.1 + d.1, p.2 + d.2).1 - p.1 = d.1 := by ring
    have e2 : (p.1 + d.1, p.2 + d.2).2 - p.2 = d.2 := by ring
    have hne1 : ((p.1 + d.1, p.2 + d.2).1 ≠ p.1 ∧ (p.1 + d.1, p.2 + d.2).2 ≠ p.2) ↔
        (d.1 ≠ 0 ∧ d.2 ≠ 0) := by
      constructor
      · rintro ⟨h1, h2⟩
        exact ⟨fun hc => h1 (by simp [hc]), fun hc => h2 (by simp [hc])⟩
      · rintro ⟨h1, h2⟩
        exact ⟨fun hc => h1 (by omega), fun hc => h2 (by omega)⟩
    refine ⟨hbnd, htrav, ?_, ?_, ?_, ?_, ?_⟩
    · intro hc
      have h1 : (p.1 + d.1, p.2 + d.2).1 = p.1 := by rw [hc]
      have h2 : (p.1 + d.1, p.2 + d.2).2 = p.2 := by rw [hc]
      simp only at h1 h2
      exact hd0 ⟨by omega, by omega⟩
    · rw [e1]; exact hd1
    · rw [e2]; exact hd2
    · intro hne
      exact hcorner (hne1.mp hne)
    · rw [← hw]
      by_cases hdiag : d.1 ≠ 0 ∧ d.2 ≠ 0
      · rw [if_pos hdiag, if_pos (hne1.mpr hdiag)]
      · rw [if_neg hdiag, if_neg (fun hc => hdiag (hne1.mp hc))]
  · rw [if_neg hcond] at hf
    cases hf

/-- Real value of the octile distance with leg lengths a and b. -/
theorem toReal_octile_eq (finish p : ℤ × ℤ) :
    NavCost.toReal (octile finish p) =
      (max (finish.1 - p.1).natAbs (finish.2 - p.2).natAbs : ℝ) +
        (Real.sqrt 2 - 1) * (min (finish.1 - p.1).natAbs (finish.2 - p.2).natAbs : ℝ) := by
  unfold octile NavCost.toReal
  have hmin : min (finish.1 - p.1).natAbs (finish.2 - p.2).natAbs ≤
      max (finish.1 - p.1).natAbs (finish.2 - p.2).natAbs := min_le_max
  rw [Nat.cast_sub hmin]
  push_cast
  ring

theorem oreal_comm (a b : Nat) : oreal a b = oreal b a := by
  unfold oreal; rw [max_comm, min_comm]

theorem oreal_mono_left {a a' : Nat} (hle : a ≤ a') (b : Nat) : oreal a b ≤ oreal a' b := by
  unfold oreal
  have hs := NavCost.sqrt_two_pos
  have hs1 : (1 : ℝ) ≤ Real.sqrt 2 := by
    nlinarith [NavCost.sq_sqrt_two, Real.sqrt_nonneg 2]
  have hmax : (max a b : ℝ) ≤ (max a' b : ℝ) := by
    have : max a b ≤ max a' b := max_le_max hle (le_refl b)
    exact_mod_cast this
  have hmin : (min a b : ℝ) ≤ (min a' b : ℝ) := by
    have : min a b ≤ min a' b := min_le_min hle (le_refl b)
    exact_mod_cast this
  nlinarith

theorem oreal_step_left (a b : Nat) : oreal (a + 1) b ≤ 1 + oreal a b := by
  unfold oreal
  have hs1 : (1 : ℝ) ≤ Real.sqrt 2 := by
    nlinarith [NavCost.sq_sqrt_two, Real.sqrt_nonneg 2]
  have hs2 : Real.sqrt 2 ≤ 2 := by
    nlinarith [NavCost.sq_sqrt_two, Real.sqrt_nonneg 2]
  push_cast
  rcases le_total (a + 1) b with hab | hab
  · have hb : ((a : ℝ) + 1) ≤ (b : ℝ) := by exact_mod_cast hab
    have hb' : (a : ℝ) ≤ (b : ℝ) := by linarith
    rw [max_eq_right hb, max_eq_right hb', min_eq_left hb, min_eq_left hb']
    nlinarith
  · rcases le_total b a with hba | hba
    · have hb : (b : ℝ) ≤ (a : ℝ) := by exact_mod_cast hba
      have hb' : (b : ℝ) ≤ (a : ℝ) + 1 := by linarith
      rw [max_eq_left hb', max_eq_left hb, min_eq_right hb', min_eq_right hb]
      nlinarith
    · have h1 : (a : ℝ) ≤ (b : ℝ) := by exact_mod_cast hba
      have h2 : (b : ℝ) ≤ (a : ℝ) + 1 := by exact_mod_cast hab
      rw [max_eq_left h2, max_eq_right h1, min_eq_right h2, min_eq_left h1]
      nlinarith

theorem oreal_step_diag (a b : Nat) :
    oreal (a + 1) (b + 1) = Real.sqrt 2 + oreal a b := by
  unfold oreal
  push_cast
  rcases le_total a b with hab | hab
  · have h1 : (a : ℝ) ≤ (b : ℝ) := by exact_mod_cast hab
    have h2 : (a : ℝ) + 1 ≤ (b : ℝ) + 1 := by linarith
    rw [max_eq_right h2, max_eq_right h1, min_eq_left h2, min_eq_left h1]
    ring
  · have h1 : (b : ℝ) ≤ (a : ℝ) := by exact_mod_cast hab
    have h2 : (b : ℝ) + 1 ≤ (a : ℝ) + 1 := by linarith
    rw [max_eq_left h2, max_eq_left h1, min_eq_right h2, min_eq_right h1]
    ring

/-- The octile heuristic is consistent for the grid successor relation
on a well-formed cost field: each step's weight is at least the drop in
heuristic value (spec section 4.1: "octile distance, admissible and
consistent for this cost model"). -/
theorem octile_consistent (R C : Nat) (field : ℤ → ℤ → Nat) (finish : ℤ × ℤ)
    (hwf : WellFormedField field) :
    Consistent (gridSucc R C field) (octile finish) := by
  intro b cw hcw
  obtain ⟨hbnd, htrav, hne, habs1, habs2, hcorner, hw⟩ := gridSucc_mem hcw
  obtain ⟨q, w⟩ := cw
  dsimp only at *
  have hcost : 1 ≤ field q.1 q.2 := by
    rcases hwf q.1 q.2 with hc | hc
    · exact absurd hc htrav
    · exact hc
  set dr : Nat := (finish.1 - b.1).natAbs with hdr
  set dc : Nat := (finish.2 - b.2).natAbs with hdc
  set dr' : Nat := (finish.1 - q.1).natAbs with hdr'
  set dc' : Nat := (finish.2 - q.2).natAbs with hdc'
  have htri1 : dr ≤ dr' + 1 := by
    have h1 : (finish.1 - b.1) = (finish.1 - q.1) + (q.1 - b.1) := by ring
    calc dr = ((finish.1 - q.1) + (q.1 - b.1)).natAbs := by rw [hdr, h1]
    _ ≤ (finish.1 - q.1).natAbs + (q.1 - b.1).natAbs := Int.natAbs_add_le _ _
    _ ≤ dr' + 1 := by omega
  have htri2 : dc ≤ dc' + 1 := by
    have h1 : (finish.2 - b.2) = (finish.2 - q.2) + (q.2 - b.2) := by ring
    calc dc = ((finish.2 - q.2) + (q.2 - b.2)).natAbs := by rw [hdc, h1]
    _ ≤ (finish.2 - q.2).natAbs + (q.2 - b.2).natAbs := Int.natAbs_add_le _ _
    _ ≤ dc' + 1 := by omega
  rw [toReal_octile_eq, toReal_octile_eq, ← hdr, ← hdc, ← hdr', ← hdc']
  show oreal dr dc ≤ NavCost.toReal w + oreal dr' dc'
  have hs1 : (1 : ℝ) ≤ Real.sqrt 2 := by
    nlinarith [NavCost.sq_sqrt_two, Real.sqrt_nonneg 2]
  by_cases hdiag : q.1 ≠ b.1 ∧ q.2 ≠ b.2
  · -- diagonal move: weight is cost * sqrt 2 ≥ sqrt 2
    rw [if_pos hdiag] at hw
    have hwr : NavCost.toReal w = (field q.1 q.2 : ℝ) * Real.sqrt 2 := by
      rw [hw]; unfold NavCost.toReal; simp
    have hwge : Real.sqrt 2 ≤ NavCost.toReal w := by
      rw [hwr]
      have : (1 : ℝ) ≤ (field q.1 q.2 : ℝ) := by exact_mod_cast hcost
      nlinarith [NavCost.sqrt_two_pos]
    calc oreal dr dc ≤ oreal (dr' + 1) dc := oreal_mono_left htri1 dc
    _ = oreal dc (dr' + 1) := oreal_comm _ _
    _ ≤ oreal (dc' + 1) (dr' + 1) := oreal_mono_left htri2 (dr' + 1)
    _ = oreal (dr' + 1) (dc' + 1) := oreal_comm _ _
    _ = Real.sqrt 2 + oreal dr' dc' := oreal_step_diag dr' dc'
    _ ≤ NavCost.toReal w + oreal dr' dc' := by linarith
  · -- orthogonal move: weight is cost ≥ 1, and one leg is unchanged
    rw [if_neg hdiag] at hw
    have hwr : NavCost.toReal w = (field q.1 q.2 : ℝ) := by
      rw [hw]; unfold NavCost.toReal; simp
    have hwge : (1 : ℝ) ≤ NavCost.toReal w := by
      rw [hwr]; exact_mod_cast hcost
    have hone : q.1 = b.1 ∨ q.2 = b.2 := by
      by_contra hc
      push_neg at hc
      exact hdiag ⟨hc.1, hc.2⟩
    rcases hone with heq | heq
    · -- rows equal, columns differ by one step
      have hdreq : dr = dr' := by rw [hdr, hdr', heq]
      calc oreal dr dc = oreal dc dr := oreal_comm _ _
      _ ≤ oreal (dc' + 1) dr := oreal_mono_left htri2 dr
      _ = oreal (dc' + 1) dr' := by rw [hdreq]
      _ = oreal dr' (dc' + 1) := oreal_comm _ _
      _ = oreal (dc' + 1) dr' := oreal_comm _ _
      _ ≤ 1 + oreal dc' dr' := oreal_step_left dc' dr'
      _ = 1 + oreal dr' dc' := by rw [oreal_comm]
      _ ≤ NavCost.toReal w + oreal dr' dc' := by linarith
    · -- columns equal, rows differ by one step
      have hdceq : dc = dc' := by rw [hdc, hdc', heq]
      calc oreal dr dc ≤ oreal (dr' + 1) dc := oreal_mono_left htri1 dc
      _ = oreal (dr' + 1) dc' := by rw [hdceq]
      _ ≤ 1 + oreal dr' dc' := oreal_step_left dr' dc'
      _ ≤ NavCost.toReal w + oreal dr' dc' := by linarith

/-- A valid reversed route, read forwards, is a chain of successor
edges. -/
theorem ValidRev.chain {α : Type} {init : List (α × NavCost)}
    {succ : α → List (α × NavCost)} {rp : List α} {c : NavCost}
    (h : ValidRev init succ rp c) :
    List.Chain' (fun a b => ∃ w, (b, w) ∈ succ a) rp.reverse := by
  induction h with
  | base hmem => simp
  | @step b rest g cnode w hprev hedge ih =>
    rw [List.reverse_cons]
    rw [List.chain'_append]
    refine ⟨ih, by simp, ?_⟩
    intro x hx y hy
    rw [List.getLast?_reverse] at hx
    simp at hx hy
    subst hx
    subst hy
    exact ⟨w, hedge⟩

/-- Unfolds a successful grid query: the entry checks passed and the
result is a valid route of the grid successor relation from the start
tile (at initial cost 0) to the finish tile. -/
theorem AStar_GridPath_found {R C : Nat} {start finish chunk : ℤ × ℤ}
    {field : ℤ → ℤ → Nat} {layer : Nat} {p : List (ℤ × ℤ)} {c : NavCost}
    (hrun : AStar_GridPath R C start finish chunk field layer = .found p c) :
    (inBounds R C start ∧ inBounds R C finish ∧
      field start.1 start.2 ≠ COST_IMPASSABLE ∧
      field finish.1 finish.2 ≠ COST_IMPASSABLE) ∧
    ∃ rp, ValidRev [(start, 0)] (gridSucc R C field) rp c ∧
      rp.head? = some finish ∧ p = rp.reverse := by
  unfold AStar_GridPath at hrun
  by_cases hok : inBounds R C start ∧ inBounds R C finish ∧
      field start.1 start.2 ≠ COST_IMPASSABLE ∧
      field finish.1 finish.2 ≠ COST_IMPASSABLE
  · rw [if_pos hok] at hrun
    refine ⟨hok, ?_⟩
    exact astarLoop_sound _ _ _
      ((AStarInv.initial [(start, 0)] (gridSucc R C field) (octile finish) finish).sound) hrun
  · rw [if_neg hok] at hrun
    cases hrun

/-- Every tile on a valid grid route is traversable. -/
theorem gridRoute_traversable {R C : Nat} {field : ℤ → ℤ → Nat}
    {start : ℤ × ℤ} {rp : List (ℤ × ℤ)} {c : NavCost}
    (hvr : ValidRev [(start, 0)] (gridSucc R C field) rp c)
    (hstart : field start.1 start.2 ≠ COST_IMPASSABLE) :
    ∀ t ∈ rp, field t.1 t.2 ≠ COST_IMPASSABLE := by
  intro t ht
  rcases hvr.mem_cases t ht with ⟨g0, hmem⟩ | ⟨b, w, hb, hw⟩
  · simp at hmem
    rw [hmem.1]
    exact hstart
  · exact (gridSucc_mem hw).2.1

/-- Optimality of a successful grid query on a well-formed cost field:
no valid route to the finish is cheaper than the returned cost. -/
theorem AStar_GridPath_optimal {R C : Nat} {start finish chunk : ℤ × ℤ}
    {field : ℤ → ℤ → Nat} {layer : Nat} {p : List (ℤ × ℤ)} {c : NavCost}
    (hwf : WellFormedField field)
    (hrun : AStar_GridPath R C start finish chunk field layer = .found p c) :
    ∀ rp' c', ValidRev [(start, 0)] (gridSucc R C field) rp' c' →
      rp'.head? = some finish → NavCost.toReal c ≤ NavCost.toReal c' := by
  unfold AStar_GridPath at hrun
  by_cases hok : inBounds R C start ∧ inBounds R C finish ∧
      field start.1 start.2 ≠ COST_IMPASSABLE ∧
      field finish.1 finish.2 ≠ COST_IMPASSABLE
  · rw [if_pos hok] at hrun
    exact (astarLoop_found (octile_consistent R C field finish hwf) _ _ _
      (AStarInv.initial [(start, 0)] (gridSucc R C field) (octile finish) finish) hrun).2
  · rw [if_neg hok] at hrun
    cases hrun

theorem mem_gridBox {R C : Nat} {p : ℤ × ℤ} : p ∈ gridBox R C ↔ inBounds R C p := by
  unfold gridBox inBounds
  rw [Finset.mem_product, Finset.mem_Ico, Finset.mem_Ico]
  tauto

theorem card_gridBox (R C : Nat) : (gridBox R C).card = R * C := by
  unfold gridBox
  rw [Finset.card_product, Int.card_Ico, Int.card_Ico]
  simp

/-- The grid query never exhausts its iteration bound. -/
theorem AStar_GridPath_ne_fuelOut (R C : Nat) (start finish chunk : ℤ × ℤ)
    (field : ℤ → ℤ → Nat) (layer : Nat) :
    AStar_GridPath R C start finish chunk field layer ≠ .fuelOut := by
  unfold AStar_GridPath
  by_cases hok : inBounds R C start ∧ inBounds R C finish ∧
      field start.1 start.2 ≠ COST_IMPASSABLE ∧
      field finish.1 finish.2 ≠ COST_IMPASSABLE
  · rw [if_pos hok]
    refine astarLoop_no_fuelOut (gridBox R C) 8 ?_ ?_ _ _ _ ?_ ?_ ?_
    · intro a _
      unfold gridSucc
      calc (List.filterMap _ gridDeltas).length ≤ gridDeltas.length :=
        List.length_filterMap_le _ _
      _ = 8 := rfl
    · intro a _ bw hbw
      exact mem_gridBox.mpr (gridSucc_mem hbw).1
    · intro e he
      simp [initFrontier] at he
      subst he
      exact mem_gridBox.mpr hok.1
    · intro v hv
      cases hv
    · rw [card_gridBox]
      simp [initFrontier]
      omega
  · rw [if_neg hok]
    simp

/-- A grid query reports no route (and returns nothing else) whenever
no valid route from start to finish exists. -/
theorem AStar_GridPath_noRoute {R C : Nat} {start finish chunk : ℤ × ℤ}
    {field : ℤ → ℤ → Nat} {layer : Nat}
    (hno : ¬ ∃ rp c, ValidRev [(start, 0)] (gridSucc R C field) rp c ∧
      rp.head? = some finish) :
    AStar_GridPath R C start finish chunk field layer = .noRoute := by
  match hres : AStar_GridPath R C start finish chunk field layer with
  | .found p c =>
    obtain ⟨_, rp, hvr, hhead, _⟩ := AStar_GridPath_found hres
    exact absurd ⟨rp, c, hvr, hhead⟩ hno
  | .noRoute => rfl
  | .fuelOut => exact absurd hres (AStar_GridPath_ne_fuelOut R C start finish chunk field layer)

theorem le_portalDegBound (priv : NavPrivate) :
    ∀ {p : Nat}, p ∈ priv.portals → (priv.portalAdj p).length ≤ portalDegBound priv := by
  unfold portalDegBound
  generalize priv.portals = l
  induction l with
  | nil => intro p hp; cases hp
  | cons a t ih =>
    intro p hp
    rcases List.mem_cons.mp hp with hp | hp
    · subst hp
      exact le_max_left _ _
    · exact le_trans (ih hp) (le_max_right _ _)

/-- Membership in the synthetic start expansion: the portal belongs to
the start chunk and the Grid Pathfinder computed exactly this
intra-chunk cost for it. -/
theorem portalInit_mem {priv : NavPrivate} {layer : Nat} {st : TileDesc}
    {pid : Nat} {c0 : NavCost} :
    (pid, c0) ∈ portalInit priv layer st ↔
      pid ∈ priv.portals ∧ priv.portalChunk pid = st.chunk ∧
      ∃ tiles, AStar_GridPath priv.fieldResR priv.fieldResC st.tile
        (priv.portalPos pid) st.chunk (priv.costField layer st.chunk) layer =
        .found tiles c0 := by
  unfold portalInit
  rw [List.mem_filterMap]
  constructor
  · rintro ⟨q, hq, hmatch⟩
    have hq' := List.mem_filter.mp hq
    have hchunk : priv.portalChunk q = st.chunk := by
      have := hq'.2
      simpa using this
    match hrun : AStar_GridPath priv.fieldResR priv.fieldResC st.tile
        (priv.portalPos q) st.chunk (priv.costField layer st.chunk) layer with
    | .found tiles c1 =>
      rw [hrun] at hmatch
      cases hmatch
      exact ⟨hq'.1, hchunk, tiles, hrun⟩
    | .noRoute => rw [hrun] at hmatch; cases hmatch
    | .fuelOut => rw [hrun] at hmatch; cases hmatch
  · rintro ⟨hmem, hchunk, tiles, hrun⟩
    refine ⟨pid, List.mem_filter.mpr ⟨hmem, by simpa using hchunk⟩, ?_⟩
    rw [hrun]

/-- Unfolds a successful portal query into a valid route of the portal
graph starting at a synthetic start candidate. -/
theorem AStar_PortalGraphPath_found {st : TileDesc} {finish : Nat} {priv : NavPrivate}
    {layer : Nat} {h : Nat → NavCost} {p : List Nat} {c : NavCost}
    (hrun : AStar_PortalGraphPath st finish priv layer h = .found p c) :
    ∃ rp, ValidRev (portalInit priv layer st) priv.portalAdj rp c ∧
      rp.head? = some finish ∧ p = rp.reverse := by
  unfold AStar_PortalGraphPath at hrun
  exact astarLoop_sound _ _ _
    ((AStarInv.initial (portalInit priv layer st) priv.portalAdj h finish).sound) hrun

/-- Optimality of a successful portal query under a consistent
heuristic. -/
theorem AStar_PortalGraphPath_optimal {st : TileDesc} {finish : Nat} {priv : NavPrivate}
    {layer : Nat} {h : Nat → NavCost} {p : List Nat} {c : NavCost}
    (hcons : Consistent priv.portalAdj h)
    (hrun : AStar_PortalGraphPath st finish priv layer h = .found p c) :
    ∀ rp' c', ValidRev (portalInit priv layer st) priv.portalAdj rp' c' →
      rp'.head? = some finish → NavCost.toReal c ≤ NavCost.toReal c' := by
  unfold AStar_PortalGraphPath at hrun
  exact (astarLoop_found hcons _ _ _
    (AStarInv.initial (portalInit priv layer st) priv.portalAdj h finish) hrun).2

/-- The portal query never exhausts its iteration bound on a
self-contained portal graph. -/
theorem AStar_PortalGraphPath_ne_fuelOut (st : TileDesc) (finish : Nat)
    (priv : NavPrivate) (layer : Nat) (h : Nat → NavCost)
    (hwf : NavWellFormed priv) :
    AStar_PortalGraphPath st finish priv layer h ≠ .fuelOut := by
  unfold AStar_PortalGraphPath
  have hinitlen : (portalInit priv layer st).length ≤ priv.portals.length := by
    unfold portalInit
    calc (List.filterMap _ _).length ≤
        (priv.portals.filter fun pid => priv.portalChunk pid = st.chunk).length :=
      List.length_filterMap_le _ _
    _ ≤ priv.portals.length := List.length_filter_le _ _
  refine astarLoop_no_fuelOut priv.portals.toFinset (portalDegBound priv) ?_ ?_ _ _ _ ?_ ?_ ?_
  · intro a ha
    exact le_portalDegBound priv (List.mem_toFinset.mp ha)
  · intro a ha bw hbw
    exact List.mem_toFinset.mpr (hwf a (List.mem_toFinset.mp ha) bw hbw)
  · intro e he
    obtain ⟨ag, hag, hae⟩ := List.mem_map.mp he
    subst hae
    obtain ⟨pid, c0⟩ := ag
    exact List.mem_toFinset.mpr (portalInit_mem.mp hag).1
  · intro v hv; cases hv
  · unfold portalFuel
    simp only [initFrontier, List.length_map, Finset.card_empty, Nat.sub_zero]
    have hcard : priv.portals.toFinset.card ≤ priv.portals.length :=
      priv.portals.toFinset_card_le
    have hmul : (portalDegBound priv + 1) * priv.portals.toFinset.card ≤
        (portalDegBound priv + 1) * priv.portals.length :=
      Nat.mul_le_mul_left _ hcard
    omega

/-- A portal query reports no route whenever no valid portal route from
the synthetic start candidates to the finish portal exists. -/
theorem AStar_PortalGraphPath_noRoute {st : TileDesc} {finish : Nat} {priv : NavPrivate}
    {layer : Nat} {h : Nat → NavCost} (hwf : NavWellFormed priv)
    (hno : ¬ ∃ rp c, ValidRev (portalInit priv layer st) priv.portalAdj rp c ∧
      rp.head? = some finish) :
    AStar_PortalGraphPath st finish priv layer h = .noRoute := by
  match hres : AStar_PortalGraphPath st finish priv layer h with
  | .found p c =>
    obtain ⟨rp, hvr, hhead, _⟩ := AStar_PortalGraphPath_found hres
    exact absurd ⟨rp, c, hvr, hhead⟩ hno
  | .noRoute => rfl
  | .fuelOut =>
    exact absurd hres (AStar_PortalGraphPath_ne_fuelOut st finish priv layer h hwf)

/-- C6: for every in-bounds, traversable tile p, a grid query from p to
p succeeds with the single-element path [p] and total cost 0 (spec
section 4.1: "start == finish: success, single-element path, cost 0"). -/
theorem grid_identity (R C : Nat) (pt chunk : ℤ × ℤ) (field : ℤ → ℤ → Nat)
    (layer : Nat) (hin : inBounds R C pt)
    (htrav : field pt.1 pt.2 ≠ COST_IMPASSABLE) :
    AStar_GridPath R C pt pt chunk field layer = .found [pt] 0 := by
  unfold AStar_GridPath
  rw [if_pos ⟨hin, hin, htrav, htrav⟩]
  show astarLoop (gridSucc R C field) (octile pt) pt ((9 * (R * C) + 1) + 1)
      [⟨pt, 0, [pt]⟩] ∅ = .found [pt] 0
  rw [astarLoop]
  rw [show popMin (octile pt) [(⟨pt, 0, [pt]⟩ : Entry (ℤ × ℤ))] =
      some (⟨pt, 0, [pt]⟩, []) from rfl]
  simp

/-- Witness for C6 at a concrete traversable tile. -/
theorem grid_identity_witness :
    AStar_GridPath 1 1 (0, 0) (0, 0) (0, 0) onesField 0 = .found [(0, 0)] 0 :=
  grid_identity 1 1 (0, 0) (0, 0) onesField 0 (by decide) (by decide)

/-- C2: every path returned by the grid pathfinder steps only between
8-connected adjacent tiles and never enters an untraversable tile
(spec section 8, soundness). -/
theorem grid_path_soundness {R C : Nat} {start finish chunk : ℤ × ℤ}
    {field : ℤ → ℤ → Nat} {layer : Nat} {p : List (ℤ × ℤ)} {c : NavCost}
    (hrun : AStar_GridPath R C start finish chunk field layer = .found p c) :
    List.Chain' GridAdjacent p ∧ ∀ t ∈ p, field t.1 t.2 ≠ COST_IMPASSABLE := by
  obtain ⟨hok, rp, hvr, hhead, hp⟩ := AStar_GridPath_found hrun
  subst hp
  constructor
  · refine List.Chain'.imp ?_ hvr.chain
    intro a b ⟨w, hw⟩
    obtain ⟨_, _, hne, h1, h2, _, _⟩ := gridSucc_mem hw
    exact ⟨fun hc => hne hc.symm, h1, h2⟩
  · intro t ht
    exact gridRoute_traversable hvr hok.2.2.1 t (List.mem_reverse.mp ht)

/-- Witness for C2 on a concrete 2 x 2 query. -/
theorem grid_path_soundness_witness :
    List.Chain' GridAdjacent [((0 : ℤ), (0 : ℤ)), (1, 1)] ∧
      ∀ t ∈ [((0 : ℤ), (0 : ℤ)), (1, 1)], onesField t.1 t.2 ≠ COST_IMPASSABLE :=
  @grid_path_soundness 2 2 (0, 0) (1, 1) (0, 0) onesField 0 [(0, 0), (1, 1)] ⟨0, 1⟩ (by decide)

/-- C3: no returned grid path contains a diagonal step whose two
orthogonal corner tiles are both untraversable (spec section 4.1,
corner-cutting rule). -/
theorem grid_no_corner_cutting {R C : Nat} {start finish chunk : ℤ × ℤ}
    {field : ℤ → ℤ → Nat} {layer : Nat} {p : List (ℤ × ℤ)} {c : NavCost}
    (hrun : AStar_GridPath R C start finish chunk field layer = .found p c) :
    List.Chain' (fun a b => (b.1 ≠ a.1 ∧ b.2 ≠ a.2) →
      ¬(field a.1 b.2 = COST_IMPASSABLE ∧ field b.1 a.2 = COST_IMPASSABLE)) p := by
  obtain ⟨hok, rp, hvr, hhead, hp⟩ := AStar_GridPath_found hrun
  subst hp
  refine List.Chain'.imp ?_ hvr.chain
  intro a b ⟨w, hw⟩
  exact (gridSucc_mem hw).2.2.2.2.2.1

/-- Witness for C3 on a concrete 2 x 2 query. -/
theorem grid_no_corner_cutting_witness :
    List.Chain' (fun a b => (b.1 ≠ a.1 ∧ b.2 ≠ a.2) →
      ¬(onesField a.1 b.2 = COST_IMPASSABLE ∧ onesField b.1 a.2 = COST_IMPASSABLE))
      [((0 : ℤ), (0 : ℤ)), (1, 1)] :=
  @grid_no_corner_cutting 2 2 (0, 0) (1, 1) (0, 0) onesField 0 [(0, 0), (1, 1)] ⟨0, 1⟩ (by decide)

/-- C1: on the spec's 10 x 10 clear cost field (all cost 1), the query
from (0,0) to (9,9) succeeds with the 10-tile pure diagonal path at
total cost 9 * sqrt 2 (the NavCost with 0 unit steps and 9 diagonal
steps), and this cost is minimal: no valid route from (0,0) to (9,9)
over this field is cheaper (first expansion of the finish under the
admissible, consistent octile heuristic yields an optimal path). -/
theorem grid_scenario_minimal_diagonal :
    AStar_GridPath 10 10 (0, 0) (9, 9) (0, 0) onesField 0 =
      .found [(0, 0), (1, 1), (2, 2), (3, 3), (4, 4), (5, 5), (6, 6), (7, 7), (8, 8), (9, 9)]
        ⟨0, 9⟩ ∧
    NavCost.toReal ⟨0, 9⟩ = 9 * Real.sqrt 2 ∧
    ∀ rp c, ValidRev [((0, 0), 0)] (gridSucc 10 10 onesField) rp c →
      rp.head? = some (9, 9) → NavCost.toReal ⟨0, 9⟩ ≤ NavCost.toReal c := by
  have hwf : WellFormedField onesField := fun r c => Or.inr le_rfl
  have heval : AStar_GridPath 10 10 (0, 0) (9, 9) (0, 0) onesField 0 =
      .found [(0, 0), (1, 1), (2, 2), (3, 3), (4, 4), (5, 5), (6, 6), (7, 7), (8, 8), (9, 9)]
        ⟨0, 9⟩ := by decide
  refine ⟨heval, ?_, ?_⟩
  · unfold NavCost.toReal
    norm_num
  · intro rp c hvr hhead
    exact AStar_GridPath_optimal hwf heval rp c hvr hhead

/-- Witness for C1: the diagonal route itself is a valid route, at the
cost the theorem bounds from below. -/
theorem grid_scenario_minimal_diagonal_witness :
    NavCost.toReal ⟨0, 9⟩ ≤ NavCost.toReal
      (0 + ⟨0, 1⟩ + ⟨0, 1⟩ + ⟨0, 1⟩ + ⟨0, 1⟩ + ⟨0, 1⟩ + ⟨0, 1⟩ + ⟨0, 1⟩ + ⟨0, 1⟩ + ⟨0, 1⟩) := by
  have h0 : ValidRev [(((0 : ℤ), (0 : ℤ)), (0 : NavCost))] (gridSucc 10 10 onesField)
      [((0 : ℤ), (0 : ℤ))] 0 := ValidRev.base (by decide)
  have h1 := ValidRev.step h0 (by decide :
    (((1, 1), ⟨0, 1⟩) : (ℤ × ℤ) × NavCost) ∈ gridSucc 10 10 onesField (0, 0))
  have h2 := ValidRev.step h1 (by decide :
    (((2, 2), ⟨0, 1⟩) : (ℤ × ℤ) × NavCost) ∈ gridSucc 10 10 onesField (1, 1))
  have h3 := ValidRev.step h2 (by decide :
    (((3, 3), ⟨0, 1⟩) : (ℤ × ℤ) × NavCost) ∈ gridSucc 10 10 onesField (2, 2))
  have h4 := ValidRev.step h3 (by decide :
    (((4, 4), ⟨0, 1⟩) : (ℤ × ℤ) × NavCost) ∈ gridSucc 10 10 onesField (3, 3))
  have h5 := ValidRev.step h4 (by decide :
    (((5, 5), ⟨0, 1⟩) : (ℤ × ℤ) × NavCost) ∈ gridSucc 10 10 onesField (4, 4))
  have h6 := ValidRev.step h5 (by decide :
    (((6, 6), ⟨0, 1⟩) : (ℤ × ℤ) × NavCost) ∈ gridSucc 10 10 onesField (5, 5))
  have h7 := ValidRev.step h6 (by decide :
    (((7, 7), ⟨0, 1⟩) : (ℤ × ℤ) × NavCost) ∈ gridSucc 10 10 onesField (6, 6))
  have h8 := ValidRev.step h7 (by decide :
    (((8, 8), ⟨0, 1⟩) : (ℤ × ℤ) × NavCost) ∈ gridSucc 10 10 onesField (7, 7))
  have h9 := ValidRev.step h8 (by decide :
    (((9, 9), ⟨0, 1⟩) : (ℤ × ℤ) × NavCost) ∈ gridSucc 10 10 onesField (8, 8))
  exact grid_scenario_minimal_diagonal.2.2 _ _ h9 rfl

set_option maxRecDepth 40000 in
set_option maxHeartbeats 2000000 in
/-- C5: when no connecting route exists, both pathfinders report no
route and return nothing else (the no-route result carries no path and
no cost).  The third conjunct is the spec's concrete scenario: the
10 x 10 field bisected by a full-height wall of untraversable tiles at
column 5. -/
theorem no_route_reported :
    (∀ (R C : Nat) (start finish chunk : ℤ × ℤ) (field : ℤ → ℤ → Nat) (layer : Nat),
      (¬ ∃ rp c, ValidRev [(start, 0)] (gridSucc R C field) rp c ∧
        rp.head? = some finish) →
      AStar_GridPath R C start finish chunk field layer = .noRoute) ∧
    (∀ (st : TileDesc) (finish : Nat) (priv : NavPrivate) (layer : Nat) (h : Nat → NavCost),
      NavWellFormed priv →
      (¬ ∃ rp c, ValidRev (portalInit priv layer st) priv.portalAdj rp c ∧
        rp.head? = some finish) →
      AStar_PortalGraphPath st finish priv layer h = .noRoute) ∧
    AStar_GridPath 10 10 (0, 0) (9, 9) (0, 0) wallField 0 = .noRoute := by
  refine ⟨?_, ?_, by decide⟩
  · intro R C start finish chunk field layer hno
    exact AStar_GridPath_noRoute hno
  · intro st finish priv layer h hwf hno
    exact AStar_PortalGraphPath_noRoute hwf hno

/-- Witness for C5: a grid query whose finish tile is on the wall, and
a portal query on an empty portal graph. -/
theorem no_route_reported_witness :
    AStar_GridPath 1 7 (0, 0) (0, 5) (0, 0) wallField 0 = .noRoute ∧
    AStar_PortalGraphPath ⟨(0, 0), (0, 0)⟩ 0 emptyNav 0 (fun _ => 0) = .noRoute := by
  constructor
  · refine no_route_reported.1 1 7 (0, 0) (0, 5) (0, 0) wallField 0 ?_
    rintro ⟨rp, c, hvr, hhead⟩
    have htrav := gridRoute_traversable hvr (by decide) (0, 5)
      (List.mem_of_mem_head? hhead)
    exact htrav (by decide)
  · refine no_route_reported.2.1 ⟨(0, 0), (0, 0)⟩ 0 emptyNav 0 (fun _ => 0) ?_ ?_
    · intro p hp
      cases hp
    · rintro ⟨rp, c, hvr, hhead⟩
      obtain ⟨a, g0, hmem, _⟩ := hvr.last_init
      cases hmem

/-- C8: every call to either pathfinder halts with a definite outcome:
the loop ends by popping the finish node (found) or exhausting the open
set (noRoute) within the iteration bound fixed by the field or graph
size, and never runs out of fuel. -/
theorem astar_terminates :
    (∀ (R C : Nat) (start finish chunk : ℤ × ℤ) (field : ℤ → ℤ → Nat) (layer : Nat),
      AStar_GridPath R C start finish chunk field layer ≠ .fuelOut) ∧
    (∀ (st : TileDesc) (finish : Nat) (priv : NavPrivate) (layer : Nat) (h : Nat → NavCost),
      NavWellFormed priv → AStar_PortalGraphPath st finish priv layer h ≠ .fuelOut) := by
  constructor
  · intro R C start finish chunk field layer
    exact AStar_GridPath_ne_fuelOut R C start finish chunk field layer
  · intro st finish priv layer h hwf
    exact AStar_PortalGraphPath_ne_fuelOut st finish priv layer h hwf

/-- Witness for C8 at concrete queries. -/
theorem astar_terminates_witness :
    AStar_GridPath 1 1 (0, 0) (0, 0) (0, 0) onesField 0 ≠ .fuelOut ∧
    AStar_PortalGraphPath ⟨(0, 0), (0, 0)⟩ 0 emptyNav 0 (fun _ => 0) ≠ .fuelOut := by
  constructor
  · exact astar_terminates.1 1 1 (0, 0) (0, 0) (0, 0) onesField 0
  · exact astar_terminates.2 ⟨(0, 0), (0, 0)⟩ 0 emptyNav 0 (fun _ => 0) (fun p hp => by cases hp)

/-- C4: both pathfinders are deterministic - two invocations with
identical inputs return identical results (the model is a pure function
of its inputs, as the spec requires of the stateless C implementation),
and the open-set discipline underlying this determinism is total: the
popped entry compares below every open entry in the (f, then lower h)
priority order. -/
theorem astar_deterministic :
    (∀ (R C : Nat) (s1 f1 ch1 : ℤ × ℤ) (fld1 : ℤ → ℤ → Nat) (l1 : Nat)
        (s2 f2 ch2 : ℤ × ℤ) (fld2 : ℤ → ℤ → Nat) (l2 : Nat),
      s1 = s2 → f1 = f2 → ch1 = ch2 → fld1 = fld2 → l1 = l2 →
      AStar_GridPath R C s1 f1 ch1 fld1 l1 = AStar_GridPath R C s2 f2 ch2 fld2 l2) ∧
    (∀ (st1 st2 : TileDesc) (fin1 fin2 : Nat) (pr1 pr2 : NavPrivate) (l1 l2 : Nat)
        (h1 h2 : Nat → NavCost),
      st1 = st2 → fin1 = fin2 → pr1 = pr2 → l1 = l2 → h1 = h2 →
      AStar_PortalGraphPath st1 fin1 pr1 l1 h1 = AStar_PortalGraphPath st2 fin2 pr2 l2 h2) ∧
    (∀ (hh : (ℤ × ℤ) → NavCost) (l : List (Entry (ℤ × ℤ))) (m : Entry (ℤ × ℤ))
        (r : List (Entry (ℤ × ℤ))),
      popMin hh l = some (m, r) → ∀ e ∈ l, entryLE hh m e) := by
  refine ⟨?_, ?_, ?_⟩
  · intro R C s1 f1 ch1 fld1 l1 s2 f2 ch2 fld2 l2 hs hf hch hfld hl
    rw [hs, hf, hch, hfld, hl]
  · intro st1 st2 fin1 fin2 pr1 pr2 l1 l2 h1 h2 hst hfin hpr hl hh
    rw [hst, hfin, hpr, hl, hh]
  · intro hh l m r hpop
    exact (popMin_spec hh l m r hpop).2.2.2.1

/-- Witness for C4 at concrete inputs. -/
theorem astar_deterministic_witness :
    AStar_GridPath 1 1 (0, 0) (0, 0) (0, 0) onesField 0 =
      AStar_GridPath 1 1 (0, 0) (0, 0) (0, 0) onesField 0 ∧
    entryLE (octile (0, 0)) ⟨(0, 0), 0, [(0, 0)]⟩ ⟨(0, 0), 0, [(0, 0)]⟩ := by
  constructor
  · exact astar_deterministic.1 1 1 (0, 0) (0, 0) (0, 0) onesField 0
      (0, 0) (0, 0) (0, 0) onesField 0 rfl rfl rfl rfl rfl
  · exact astar_deterministic.2.2 (octile (0, 0)) [⟨(0, 0), 0, [(0, 0)]⟩]
      ⟨(0, 0), 0, [(0, 0)]⟩ [] (by decide) ⟨(0, 0), 0, [(0, 0)]⟩ (by simp)

/-- C7: a successful portal query's cost decomposes as the Grid
Pathfinder's intra-chunk cost from the start tile to the first portal
plus the sum of the precomputed edge weights along the returned portal
sequence; and no alternative hop sequence (any reordering, omission or
other valid route reaching the finish portal) has a lower true cost.
The heuristic satisfies the consistency property the spec asserts for
its scaled Euclidean heuristic. -/
theorem portal_cost_decomposition_and_optimality
    {st : TileDesc} {finish : Nat} {priv : NavPrivate} {layer : Nat}
    {h : Nat → NavCost} {p : List Nat} {c : NavCost}
    (hcons : Consistent priv.portalAdj h)
    (hrun : AStar_PortalGraphPath st finish priv layer h = .found p c) :
    (∃ p0 c0 ws tiles,
      p.head? = some p0 ∧ priv.portalChunk p0 = st.chunk ∧
      AStar_GridPath priv.fieldResR priv.fieldResC st.tile (priv.portalPos p0)
        st.chunk (priv.costField layer st.chunk) layer = .found tiles c0 ∧
      EdgeChain priv.portalAdj p ws ∧ c = c0 + sumCosts ws) ∧
    (∀ (q0 : Nat) (d0 : NavCost) (alt : List Nat) (ws' : List NavCost),
      (q0, d0) ∈ portalInit priv layer st → alt.head? = some q0 →
      EdgeChain priv.portalAdj alt ws' → alt.getLast? = some finish →
      NavCost.toReal c ≤ NavCost.toReal (d0 + sumCosts ws')) := by
  obtain ⟨rp, hvr, hhead, hp⟩ := AStar_PortalGraphPath_found hrun
  constructor
  · obtain ⟨p0, g0, ws, hmem, hrevhead, hchain, hcost⟩ := hvr.decomp
    obtain ⟨hportal, hchunk, tiles, hgrid⟩ := portalInit_mem.mp hmem
    exact ⟨p0, g0, ws, tiles, by rw [hp]; exact hrevhead, hchunk, hgrid,
      by rw [hp]; exact hchain, hcost⟩
  · intro q0 d0 alt ws' hmem hahead hachain halast
    have hvr' : ValidRev (portalInit priv layer st) priv.portalAdj alt.reverse
        (d0 + sumCosts ws') := ValidRev.of_chain hachain hahead hmem
    have hhead' : alt.reverse.head? = some finish := by
      rw [List.head?_reverse]
      exact halast
    exact AStar_PortalGraphPath_optimal hcons hrun alt.reverse _ hvr' hhead'

theorem demoNav_consistent : Consistent demoNav.portalAdj (fun _ => 0) := by
  intro b cw hcw
  rw [NavCost.toReal_zero]
  have := NavCost.toReal_nonneg cw.2
  linarith

/-- Witness for C7 on the demo context: the cost decomposition of the
returned route, and the lower bound applied to the route itself. -/
theorem portal_cost_decomposition_and_optimality_witness :
    (∃ p0 c0 ws tiles,
      ([0, 1] : List Nat).head? = some p0 ∧ demoNav.portalChunk p0 = (0, 0) ∧
      AStar_GridPath demoNav.fieldResR demoNav.fieldResC (0, 0) (demoNav.portalPos p0)
        (0, 0) (demoNav.costField 0 (0, 0)) 0 = .found tiles c0 ∧
      EdgeChain demoNav.portalAdj [0, 1] ws ∧ (⟨3, 0⟩ : NavCost) = c0 + sumCosts ws) ∧
    NavCost.toReal ⟨3, 0⟩ ≤ NavCost.toReal (0 + sumCosts [⟨3, 0⟩]) := by
  have hrun : AStar_PortalGraphPath ⟨(0, 0), (0, 0)⟩ 1 demoNav 0 (fun _ => 0) =
      .found [0, 1] ⟨3, 0⟩ := by decide
  have hthm := portal_cost_decomposition_and_optimality demoNav_consistent hrun
  constructor
  · exact hthm.1
  · exact hthm.2 0 0 [0, 1] [⟨3, 0⟩] (by decide) rfl
      (EdgeChain.cons (by decide) (EdgeChain.single 1)) rfl

theorem ss_set_get (table : String → Option Int) (name : String) (val : Int) :
    ss_state_set_key table name val name = some val := by
  unfold ss_state_set_key
  simp

/-- C9 counterexample: with a negative stored capacity (-1), setting
desired to 5 stores 0, which neither equals min(max(5,0),-1) = -1 nor
lies in the interval [0,-1] (which is empty).  The claim's clamping
formula fails whenever the capacity value is negative, because the
code applies MIN before MAX, so the lower bound 0 wins. -/
theorem storage_desired_clamp_counterexample :
    ((G_StorageSite_SetDesired (G_StorageSite_SetCapacity ssEmpty "wood" (-1))
        "wood" 5).desired "wood" = some 0) ∧
    ((G_StorageSite_SetCapacity ssEmpty "wood" (-1)).capacity "wood" = some (-1)) ∧
    (0 : Int) ≠ min (max 5 0) (-1) ∧ ¬((0 : Int) ≤ -1) := by
  refine ⟨by decide, by decide, by decide, by decide⟩

/-- C9 (amended): after `G_StorageSite_SetDesired(ss, r, d)` the stored
desired value is exactly max(min(d, c), 0), where c is the capacity
table's value for r (0 when absent); after
`G_StorageSite_SetCapacity(ss, r, m)` it is exactly
max(min(d0, m), 0) for the previously stored desired d0 (0 when
absent).  In particular the stored value is always ≥ 0, and it lies in
[0, c] (resp. [0, m]) whenever the capacity is nonnegative, which is
the claim's interval statement restricted to nonnegative capacities;
the claimed formula min(max(d,0),c) agrees only in that case. -/
theorem storage_desired_clamped :
    (∀ (ss : SsState) (r : String) (d : Int),
      (G_StorageSite_SetDesired ss r d).desired r =
        some (max (min d (ss_state_get_key ss.capacity r 0)) 0) ∧
      (0 : Int) ≤ max (min d (ss_state_get_key ss.capacity r 0)) 0 ∧
      (0 ≤ ss_state_get_key ss.capacity r 0 →
        max (min d (ss_state_get_key ss.capacity r 0)) 0 ≤
          ss_state_get_key ss.capacity r 0 ∧
        max (min d (ss_state_get_key ss.capacity r 0)) 0 = min (max d 0)
          (ss_state_get_key ss.capacity r 0))) ∧
    (∀ (ss : SsState) (r : String) (m : Int),
      (G_StorageSite_SetCapacity ss r m).desired r =
        some (max (min (ss_state_get_key ss.desired r 0) m) 0) ∧
      (0 : Int) ≤ max (min (ss_state_get_key ss.desired r 0) m) 0 ∧
      (0 ≤ m → max (min (ss_state_get_key ss.desired r 0) m) 0 ≤ m)) := by
  constructor
  · intro ss r d
    refine ⟨?_, le_max_right _ _, ?_⟩
    · unfold G_StorageSite_SetDesired constrain_desired ss_state_get_key
      simp [ss_set_get]
    · intro hc
      constructor
      · exact max_le (min_le_right _ _) hc
      · omega
  · intro ss r m
    refine ⟨?_, le_max_right _ _, ?_⟩
    · unfold G_StorageSite_SetCapacity constrain_desired ss_state_get_key
      simp [ss_set_get]
    · intro hc
      exact max_le (min_le_right _ _) hc

/-- Witness for the amended C9 at concrete values. -/
theorem storage_desired_clamped_witness :
    ((G_StorageSite_SetDesired ssEmpty "wood" 5).desired "wood" =
      some (max (min 5 (ss_state_get_key ssEmpty.capacity "wood" 0)) 0)) ∧
    ((G_StorageSite_SetCapacity ssEmpty "wood" 4).desired "wood" =
      some (max (min (ss_state_get_key ssEmpty.desired "wood" 0) 4) 0)) := by
  constructor
  · exact (storage_desired_clamped.1 ssEmpty "wood" 5).1
  · exact (storage_desired_clamped.2 ssEmpty "wood" 4).1

theorem ceilSqrt_le_sq (n : Nat) : n ≤ ceilSqrt n * ceilSqrt n := by
  unfold ceilSqrt
  by_cases hsq : Nat.sqrt n * Nat.sqrt n = n
  · rw [if_pos hsq, hsq]
  · rw [if_neg hsq]
    simpa [Nat.succ_eq_add_one] using (Nat.lt_succ_sqrt n).le

theorem ceilSqrt_least {n k : Nat} (hk : n ≤ k * k) : ceilSqrt n ≤ k := by
  unfold ceilSqrt
  have hks : Nat.sqrt n ≤ k := by
    by_contra hc
    push_neg at hc
    have h1 : k + 1 ≤ Nat.sqrt n := hc
    have h2 : Nat.sqrt n * Nat.sqrt n ≤ n := Nat.sqrt_le n
    nlinarith
  by_cases hsq : Nat.sqrt n * Nat.sqrt n = n
  · rw [if_pos hsq]; exact hks
  · rw [if_neg hsq]
    rcases Nat.eq_or_lt_of_le hks with heq | hlt
    · exfalso
      have h2 : Nat.sqrt n * Nat.sqrt n ≤ n := Nat.sqrt_le n
      subst heq
      omega
    · omega

/-- `ncols FORMATION_RANK n` is the least k with n ≤ 4k², i.e. the
exact ceiling of sqrt(n/4). -/
theorem ncols_rank_least (n : Nat) :
    n ≤ 4 * (ncols .rank n * ncols .rank n) ∧
    ∀ k, n ≤ 4 * (k * k) → ncols .rank n ≤ k := by
  constructor
  · show n ≤ 4 * ((ceilSqrt n + 1) / 2 * ((ceilSqrt n + 1) / 2))
    have h1 := ceilSqrt_le_sq n
    have h2 : ceilSqrt n ≤ 2 * ((ceilSqrt n + 1) / 2) := by omega
    nlinarith
  · intro k hk
    show (ceilSqrt n + 1) / 2 ≤ k
    have : ceilSqrt n ≤ 2 * k := ceilSqrt_least (by nlinarith)
    omega

/-- `ncols FORMATION_COLUMN n` is the least k with 4n ≤ k², i.e. the
exact ceiling of sqrt(n/0.25). -/
theorem ncols_column_least (n : Nat) :
    4 * n ≤ ncols .column n * ncols .column n ∧
    ∀ k, 4 * n ≤ k * k → ncols .column n ≤ k := by
  constructor
  · exact ceilSqrt_le_sq (4 * n)
  · intro k hk
    exact ceilSqrt_least hk

/-- C10 evaluated at the failing input: for a rank formation of 5
units, `ncols` is 2 and `nrows` is floor(5/2) = 2 (the size_t division
truncates before `ceilf`), so `G_Formation_Create` builds a 2 x 2 cell
grid - 4 cells for 5 units, contradicting "Each cell holds a single
unit from the formation" (formation.c) and the claimed
nrows * ncols ≥ n.  The intended ceiling division would give 3 rows. -/
theorem sqrt_eq_of_bounds {n k : Nat} (h1 : k * k ≤ n) (h2 : n < (k + 1) * (k + 1)) :
    Nat.sqrt n = k :=
  Nat.le_antisymm (Nat.le_of_lt_succ (Nat.sqrt_lt.mpr h2)) (Nat.le_sqrt.mpr h1)

theorem ceilSqrt_five : ceilSqrt 5 = 3 := by
  have hs : Nat.sqrt 5 = 2 := sqrt_eq_of_bounds (by norm_num) (by norm_num)
  unfold ceilSqrt
  rw [hs]
  norm_num

theorem ncols_rank_five : ncols .rank 5 = 2 := by
  show (ceilSqrt 5 + 1) / 2 = 2
  rw [ceilSqrt_five]

theorem formation_cells_fewer_than_units :
    ncols .rank 5 = 2 ∧ nrows .rank 5 = 2 ∧
    G_Formation_Create_dims 5 = (2, 2) ∧
    nrows .rank 5 * ncols .rank 5 < 5 ∧
    (5 + ncols .rank 5 - 1) / ncols .rank 5 = 3 := by
  have hr : nrows .rank 5 = 2 := by
    unfold nrows
    rw [ncols_rank_five]
  refine ⟨ncols_rank_five, hr, ?_, ?_, ?_⟩
  · unfold G_Formation_Create_dims
    rw [ncols_rank_five, hr]
  · rw [ncols_rank_five, hr]
    norm_num
  · rw [ncols_rank_five]
